import Mathlib

/-!
# IRon: relevance spline, bump table and utility score

A shallow embedding of `pchip.c`, `bump.c`, `phi.c` and `util.c`.

Conventions of the embedding:

* a C `double` that is always finite is a rational number `ℚ`; the bump table,
  which stores `INFINITY` and `-INFINITY`, uses the three-constructor type `Dbl`;
* a C array is a total map `Nat → _`; memory obtained from `S_alloc` is zeroed,
  so cells that are never written hold `0`;
* a counted `for`/`while` loop is a left fold of its body over `List.range`;
* `sqrt` from the C library is taken as a parameter of the spline builder;
* `findInterval` from the R API is modelled from its documented contract.
-/

namespace IRon

/-! ## Doubles with infinities -/

/-- A C double that may hold an infinity: `ninf` is `-INFINITY`, `pinf` is `INFINITY`. -/
inductive Dbl where
  | ninf : Dbl
  | fin : ℚ → Dbl
  | pinf : Dbl
  deriving DecidableEq

namespace Dbl

/-- The order `a <= b` of doubles. -/
def le : Dbl → Dbl → Prop
  | ninf, ninf => True
  | ninf, fin _ => True
  | ninf, pinf => True
  | fin _, ninf => False
  | fin a, fin b => a ≤ b
  | fin _, pinf => True
  | pinf, ninf => False
  | pinf, fin _ => False
  | pinf, pinf => True

/-- The order `a < b` of doubles. -/
def lt : Dbl → Dbl → Prop
  | ninf, ninf => False
  | ninf, fin _ => True
  | ninf, pinf => True
  | fin _, ninf => False
  | fin a, fin b => a < b
  | fin _, pinf => True
  | pinf, ninf => False
  | pinf, fin _ => False
  | pinf, pinf => False

instance : LE Dbl := ⟨le⟩

instance : LT Dbl := ⟨lt⟩

instance decLe : (a b : Dbl) → Decidable (a ≤ b)
  | ninf, ninf => isTrue trivial
  | ninf, fin _ => isTrue trivial
  | ninf, pinf => isTrue trivial
  | fin _, ninf => isFalse id
  | fin a, fin b => inferInstanceAs (Decidable (a ≤ b))
  | fin _, pinf => isTrue trivial
  | pinf, ninf => isFalse id
  | pinf, fin _ => isFalse id
  | pinf, pinf => isTrue trivial

instance decLt : (a b : Dbl) → Decidable (a < b)
  | ninf, ninf => isFalse id
  | ninf, fin _ => isTrue trivial
  | ninf, pinf => isTrue trivial
  | fin _, ninf => isFalse id
  | fin a, fin b => inferInstanceAs (Decidable (a < b))
  | fin _, pinf => isTrue trivial
  | pinf, ninf => isFalse id
  | pinf, fin _ => isFalse id
  | pinf, pinf => isFalse id

/-- The test `R_FINITE(a)`. -/
def isFinite : Dbl → Bool
  | fin _ => true
  | _ => false

/-- The product `2 * a`. -/
def twice : Dbl → Dbl
  | ninf => ninf
  | fin a => fin (2 * a)
  | pinf => pinf

/-- The quotient `l / a` of a finite `l` by a double: a finite number over an
infinity is zero. -/
def qdiv (l : ℚ) : Dbl → ℚ
  | fin a => l / a
  | _ => 0

end Dbl

/-! ## `findInterval` -/

/-- Modelled from the spec: `findInterval(xt, n, x, 0, 0, ...)` of the R API, which is
not part of this repository. For a sorted `xt[0..n-1]` it returns the number of
entries that are `<= x`: `0` below `xt[0]`, `n` at or beyond `xt[n-1]`. -/
def findInterval {α : Type} [LE α] [DecidableRel (fun (u v : α) => u ≤ v)]
    (xt : Nat → α) : Nat → α → Nat
  | 0, _ => 0
  | n + 1, x => findInterval xt n x + (if xt n ≤ x then 1 else 0)

/-! ## `pchip.c` -/

/-- The struct `hermiteSpl` of `pchip.h`. -/
structure hermiteSpl where
  npts : Nat
  x : Nat → ℚ
  a : Nat → ℚ
  b : Nat → ℚ
  c : Nat → ℚ
  d : Nat → ℚ

/-- The call `memcpy(dst, src, n*sizeof(double))` into a zeroed `dst`. -/
def memcpy (src : Nat → ℚ) (n : Nat) : Nat → ℚ :=
  fun i => if i < n then src i else 0

/-- The body of the loop of `pchip_slope_monoFC` at index `k`; `m` is modified in place. -/
def pchip_slope_monoFC_body (sqrt : ℚ → ℚ) (delta : Nat → ℚ) (m : Nat → ℚ) (k : Nat) :
    Nat → ℚ :=
  let Sk := delta k
  let k1 := k + 1
  if |Sk| = 0 then
    Function.update (Function.update m k1 0) k 0
  else
    let alpha := m k / Sk
    let beta := m k1 / Sk
    let ma := if |m k| ≠ 0 ∧ alpha < 0 then Function.update m k (-(m k)) else m
    let alpha := if |m k| ≠ 0 ∧ alpha < 0 then ma k / Sk else alpha
    let mb := if |ma k1| ≠ 0 ∧ beta < 0 then Function.update ma k1 (-(ma k1)) else ma
    let beta := if |ma k1| ≠ 0 ∧ beta < 0 then mb k1 / Sk else beta
    let a2b3 := 2 * alpha + beta - 3
    let ab23 := alpha + 2 * beta - 3
    if a2b3 > 0 ∧ ab23 > 0 ∧ alpha * (a2b3 + ab23) < a2b3 * a2b3 then
      let tauS := 3 * Sk / sqrt (alpha * alpha + beta * beta)
      Function.update (Function.update mb k (tauS * alpha)) k1 (tauS * beta)
    else
      mb

/-- The function `pchip_slope_monoFC`: one left-to-right pass `k = 0 .. n-2`. -/
def pchip_slope_monoFC (sqrt : ℚ → ℚ) (n : Nat) (m delta : Nat → ℚ) : Nat → ℚ :=
  (List.range (n - 1)).foldl (pchip_slope_monoFC_body sqrt delta) m

/-- The auxiliary vector `h` of `pchip_set`. -/
def pchip_h (n : Nat) (x : Nat → ℚ) : Nat → ℚ :=
  fun i => if i < n - 1 then x (i + 1) - x i else 0

/-- The auxiliary vector `delta` of `pchip_set`. -/
def pchip_delta (n : Nat) (x y : Nat → ℚ) : Nat → ℚ :=
  fun i => if i < n - 1 then (y (i + 1) - y i) / pchip_h n x i else 0

/-- The function `pchip_set`. -/
def pchip_set (sqrt : ℚ → ℚ) (n : Nat) (x y m : Nat → ℚ) : hermiteSpl :=
  let h := pchip_h n x
  let delta := pchip_delta n x y
  let new_m := pchip_slope_monoFC sqrt n m delta
  { npts := n
    x := memcpy x n
    a := memcpy y n
    b := memcpy new_m n
    c := fun i => if i < n - 1 then (3 * delta i - 2 * new_m i - new_m (i + 1)) / h i else 0
    d := fun i =>
      if i < n - 1 then (new_m i - 2 * delta i + new_m (i + 1)) / (h i * h i) else 0 }

/-- A read `arr[i]` of an array of length `n` at a C `int` index: `none` when the
index is outside `0 .. n-1`. -/
def rd (n : Nat) (arr : Nat → ℚ) (i : Int) : Option ℚ :=
  if 0 ≤ i ∧ i < n then some (arr i.toNat) else none

/-- The index at which `pchip_val` reads the arrays of the spline. -/
def pchip_val_index (H : hermiteSpl) (xval : ℚ) (extrapol : Int) : Int :=
  let i : Int := findInterval H.x H.npts xval
  if extrapol = 0 ∧ (i = 0 ∨ i = H.npts) then
    if i = H.npts then i - 1 else i
  else
    i - 1

/-- The function `pchip_val`; the result `*yval` is returned, `none` when an array
is read outside its bounds. -/
def pchip_val (H : hermiteSpl) (xval : ℚ) (extrapol : Int) : Option ℚ :=
  let i : Int := findInterval H.x H.npts xval
  if extrapol = 0 ∧ (i = 0 ∨ i = H.npts) then
    let i := if i = H.npts then i - 1 else i
    match rd H.npts H.a i, rd H.npts H.b i, rd H.npts H.x i with
    | some a, some b, some x => some (a + b * (xval - x))
    | _, _, _ => none
  else
    let i := i - 1
    match rd H.npts H.x i, rd H.npts H.a i, rd H.npts H.b i, rd H.npts H.c i,
      rd H.npts H.d i with
    | some x, some a, some b, some c, some d =>
      let s := xval - x
      some (a + s * (b + s * (c + s * d)))
    | _, _, _, _, _ => none

/-! ## `phi.c` -/

/-- The struct `phi_out` of `phi.h`. -/
structure phi_out where
  y_phi : ℚ
  deriving DecidableEq

/-- The struct `phi_fun` of `phi.h`; the function pointer `phi_value` always holds
`phiSpl_value` and is not stored. -/
structure phi_fun where
  method : Int
  H : hermiteSpl

/-- The function `phiSpl_value`: the relevance of `y`, linear extrapolation. -/
def phiSpl_value (y : ℚ) (phiF : phi_fun) : Option phi_out :=
  let extrap : Int := 0
  (pchip_val phiF.H y extrap).map phi_out.mk

/-- The function `jphi_value`. -/
def jphi_value (y_phi ypred_phi p : ℚ) : ℚ :=
  p * y_phi + (1 - p) * ypred_phi

/-- The struct `phi_bumps` of `phi.h`. -/
structure phi_bumps where
  n : Nat
  bleft : Nat → Dbl
  bmax : Nat → Dbl
  bloss : Nat → Dbl

/-- The first loop of `bumps_set`: the array `critical_idx` and its length `j`. -/
def critical_scan (H : hermiteSpl) : (Nat → Nat) × Nat :=
  (List.range H.npts).foldl
    (fun (cj : (Nat → Nat) × Nat) (i : Nat) =>
      if |H.b i| = 0 then (Function.update cj.1 cj.2 i, cj.2 + 1) else cj)
    (fun _ => 0, 0)

/-- The local variables of `bumps_set` that live across iterations of its `while` loop. -/
structure bumps_state where
  B : phi_bumps
  sum_b : ℚ
  nb : Nat
  inBump : Bool

/-- The block of `bumps_set` (lines 90-96 and 127-133) that widens `bloss[B->n-1]`
once `bleft[B->n]` is known. -/
def bloss_prev (B : phi_bumps) : phi_bumps :=
  match B.bmax (B.n - 1), B.bleft B.n with
  | Dbl.fin u, Dbl.fin v =>
    let delta := |u - v|
    if Dbl.fin delta < B.bloss (B.n - 1) then
      { B with bloss := Function.update B.bloss (B.n - 1) (Dbl.fin (2 * delta)) }
    else
      { B with bloss := Function.update B.bloss (B.n - 1) (Dbl.twice (B.bloss (B.n - 1))) }
  | _, _ => B

/-- The assignment `B->bloss[B->n] = c * fabs(B->bmax[B->n] - B->bleft[B->n])`, guarded
by `R_FINITE` of both operands. -/
def bloss_cur (c : ℚ) (B : phi_bumps) : phi_bumps :=
  match B.bmax B.n, B.bleft B.n with
  | Dbl.fin u, Dbl.fin v => { B with bloss := Function.update B.bloss B.n (Dbl.fin (c * |u - v|)) }
  | _, _ => B

/-- The body of the `while` loop of `bumps_set` at index `i`. -/
def bumps_body (H : hermiteSpl) (critical_idx : Nat → Nat) (s : bumps_state) (i : Nat) :
    bumps_state :=
  let d1 := H.a (critical_idx (i + 1)) - H.a (critical_idx i)
  if d1 = 0 then
    { s with sum_b := s.sum_b + H.x (critical_idx (i + 1)), nb := s.nb + 1 }
  else
    let s1 : bumps_state :=
      if d1 < 0 ∧ s.inBump = true then
        let B1 := { s.B with bmax := Function.update s.B.bmax s.B.n (Dbl.fin (s.sum_b / s.nb)) }
        { s with B := bloss_cur 1 B1, inBump := false }
      else if d1 > 0 ∧ (s.inBump = false ∨ s.B.n = 0) then
        let B1 := { s.B with n := s.B.n + 1 }
        let B2 := { B1 with bleft := Function.update B1.bleft B1.n (Dbl.fin (s.sum_b / s.nb)) }
        { s with B := bloss_prev B2, inBump := true }
      else
        s
    { s1 with sum_b := H.x (critical_idx (i + 1)), nb := 1 }

/-- The state of `bumps_set` when its `while` loop is entered. -/
def bumps_init (H : hermiteSpl) (critical_idx : Nat → Nat) : bumps_state :=
  { B :=
      { n := 0
        bleft := Function.update (fun _ => Dbl.fin 0) 0 Dbl.ninf
        bmax := Function.update (fun _ => Dbl.fin 0) 0 Dbl.ninf
        bloss := Function.update (fun _ => Dbl.fin 0) 0 Dbl.pinf }
    sum_b := H.x (critical_idx 0)
    nb := 1
    inBump := true }

/-- The state of `bumps_set` when its `while` loop is left. -/
def bumps_loop (H : hermiteSpl) : bumps_state :=
  let cj := critical_scan H
  (List.range (cj.2 - 1)).foldl (bumps_body H cj.1) (bumps_init H cj.1)

/-- Lines 112-134 of `bumps_set`: the run that is still open when the loop is left is
closed (a rising run) or followed by one last bump (a falling run). -/
def bumps_last (s : bumps_state) : phi_bumps :=
  if s.inBump = true then
    bloss_cur 2 { s.B with bmax := Function.update s.B.bmax s.B.n (Dbl.fin (s.sum_b / s.nb)) }
  else
    let B1 := { s.B with n := s.B.n + 1 }
    let B2 := { B1 with bleft := Function.update B1.bleft B1.n (Dbl.fin (s.sum_b / s.nb)) }
    let B3 := { B2 with bmax := Function.update B2.bmax B2.n Dbl.pinf }
    bloss_prev B3

/-- Lines 137-138 of `bumps_set`: the loss scale outside the range of the control points. -/
def bumps_extrapol (B : phi_bumps) : phi_bumps :=
  let B1 : phi_bumps :=
    if (B.bmax 0).isFinite = false then
      { B with bloss := Function.update B.bloss 0 (B.bloss 1) }
    else B
  if (B1.bmax B1.n).isFinite = false then
    { B1 with bloss := Function.update B1.bloss B1.n (B1.bloss (B1.n - 1)) }
  else B1

/-- The part of `bumps_set` after the `while` loop, up to and excluding the final
`B->n++` and the sentinel. -/
def bumps_close (loss_args : Nat → Dbl) (s : bumps_state) : phi_bumps :=
  if s.B.n > 0 then
    bumps_extrapol (bumps_last s)
  else
    { s.B with bloss := Function.update s.B.bloss 0 (loss_args 2) }

/-- The function `bumps_set`. -/
def bumps_set (H : hermiteSpl) (loss_args : Nat → Dbl) : phi_bumps :=
  let B := bumps_close loss_args (bumps_loop H)
  let n := B.n + 1
  { n := n
    bleft := Function.update B.bleft n (Dbl.fin 0)
    bmax := Function.update B.bmax n (Dbl.fin 0)
    bloss := Function.update B.bloss n (Dbl.fin 0) }

/-! ## `util.c` -/

/-- The struct `util_fun` of `util.h`. -/
structure util_fun where
  p : ℚ
  Bmax : ℚ
  event_thr : ℚ

/-- The function `util_init`. -/
def util_init (utilF_args : Nat → ℚ) : util_fun :=
  { p := utilF_args 0, Bmax := utilF_args 1, event_thr := utilF_args 2 }

/-- The bump index `i` that `benefcost_lin` uses: the interval search over `bleft`
when the table has more than one bump, then the decrement. -/
def benefcost_index (y : ℚ) (bumpI : phi_bumps) : Nat :=
  let i : Nat := if bumpI.n > 1 then findInterval bumpI.bleft bumpI.n (Dbl.fin y) else 1
  if i > 0 then i - 1 else i

/-- The function `benefcost_lin`; the outputs `(*lb, *lc, *ycphi)` are returned. The
local `yc` of the source is computed and never used. -/
def benefcost_lin (y ypred ypred_phi : ℚ) (_phiF : phi_fun) (bumpI : phi_bumps) :
    Dbl × Dbl × ℚ :=
  let i := benefcost_index y bumpI
  let lossA : Dbl :=
    if ypred ≤ y then
      if i > 0 then
        match bumpI.bleft i with
        | Dbl.fin v => Dbl.fin |y - v|
        | _ => Dbl.pinf
      else Dbl.pinf
    else
      if i + 1 < bumpI.n then
        match bumpI.bleft (i + 1) with
        | Dbl.fin v => Dbl.fin |y - v|
        | _ => Dbl.pinf
      else Dbl.pinf
  let lb : Dbl := if lossA < bumpI.bloss i then lossA else bumpI.bloss i
  let lossA : Dbl :=
    if ypred ≤ y then
      if i > 0 then
        match bumpI.bmax (i - 1) with
        | Dbl.fin v => Dbl.fin |y - v|
        | _ => Dbl.pinf
      else Dbl.pinf
    else
      if i + 1 < bumpI.n then
        match bumpI.bmax (i + 1) with
        | Dbl.fin v => Dbl.fin |y - v|
        | _ => Dbl.pinf
      else Dbl.pinf
  let lc : Dbl := if lossA < bumpI.bloss i then lossA else bumpI.bloss i
  (lb, lc, ypred_phi)

/-- The benefit `benef` computed by `util_value` from `l` and `lb`. -/
def util_benef (l : ℚ) (lb : Dbl) : ℚ :=
  if lb = Dbl.fin 0 ∨ lb < Dbl.fin l then 0 else 1 - Dbl.qdiv l lb

/-- The cost `cost` computed by `util_value` from `l` and `lc`. -/
def util_cost (l : ℚ) (lc : Dbl) : ℚ :=
  if lc = Dbl.fin 0 ∨ lc < Dbl.fin l then 1 else Dbl.qdiv l lc

/-- The function `util_value`. -/
def util_value (y ypred : ℚ) (y_phiF ypred_phiF : phi_out) (phiF : phi_fun)
    (bumpI : phi_bumps) (utilF : util_fun) : ℚ :=
  let r := benefcost_lin y ypred ypred_phiF.y_phi phiF bumpI
  let lb := r.1
  let lc := r.2.1
  let ycphi := r.2.2
  let l := |y - ypred|
  let benef := util_benef l lb
  let jphi := jphi_value y_phiF.y_phi ycphi utilF.p
  let cost := util_cost l lc
  y_phiF.y_phi * benef - jphi * cost

/-- The function `util_core`: the output array `u` for `n` pairs; an entry is `none`
when the relevance evaluation reads out of bounds. Both relevance values are
evaluated at `y[i]`, as in the source. -/
def util_core (n : Nat) (y ypred : Nat → ℚ) (phiF : phi_fun) (bumpI : phi_bumps)
    (utilF : util_fun) : Nat → Option ℚ :=
  fun i =>
    if i < n then
      match phiSpl_value (y i) phiF, phiSpl_value (y i) phiF with
      | some y_phiF, some ypred_phiF =>
        some (util_value (y i) (ypred i) y_phiF ypred_phiF phiF bumpI utilF)
      | _, _ => none
    else none

/-! ## Concrete inputs -/

/-- A C array given by the list of its cells. -/
def ofList (l : List ℚ) : Nat → ℚ :=
  fun i => l.getD i 0

/-- The spline of the control points `x = [0,5,10]`, `y = [0,1,0]`, slopes `[0,0,0]`. -/
def peakSpline : hermiteSpl :=
  pchip_set Rat.sqrt 3 (ofList [0, 5, 10]) (ofList [0, 1, 0]) (ofList [0, 0, 0])

/-- The bump table of `peakSpline`, fallback loss scale `1`. -/
def peakBumps : phi_bumps :=
  bumps_set peakSpline (fun _ => Dbl.fin 1)

/-- The spline of the control points `x = [0,1,2]`, `y = [0,1,5/4]`, slopes `[4,1,0]`:
`y` is strictly increasing. -/
def risingSpline : hermiteSpl :=
  pchip_set Rat.sqrt 3 (ofList [0, 1, 2]) (ofList [0, 1, 5 / 4]) (ofList [4, 1, 0])

/-- The spline of the control points `x = [0,1]`, `y = [0,1]`, slopes `[0,0]`. -/
def twoPointSpline : hermiteSpl :=
  pchip_set Rat.sqrt 2 (ofList [0, 1]) (ofList [0, 1]) (ofList [0, 0])


/-- The spline of the control points `x = [0,1]`, `y = [0,1]`, slopes `[1,1]`: no slope
of the built spline is zero. -/
def slopedSpline : hermiteSpl :=
  pchip_set Rat.sqrt 2 (ofList [0, 1]) (ofList [0, 1]) (ofList [1, 1])

/-! ## Loop invariants -/

/-- The invariant of the first loop of `bumps_set` after `m` iterations. -/
def critical_inv (m : Nat) (cj : (Nat → Nat) × Nat) : Prop :=
  cj.2 ≤ m ∧ (∀ t, t < cj.2 → cj.1 t < m) ∧ (∀ t, t + 1 < cj.2 → cj.1 t < cj.1 (t + 1))

/-- The ordering facts that the `while` loop of `bumps_set` maintains: every boundary
written so far is in order, and none exceeds `L`, a lower bound of the running plateau. -/
def bumps_chain (B : phi_bumps) (inBump : Bool) (L : ℚ) : Prop :=
  B.bleft 0 = Dbl.ninf ∧
  (∀ k, k < B.n → B.bleft k ≤ B.bmax k ∧ B.bmax k ≤ B.bleft (k + 1)) ∧
  B.bleft B.n ≤ Dbl.fin L ∧
  (inBump = false → B.bleft B.n ≤ B.bmax B.n ∧ B.bmax B.n ≤ Dbl.fin L) ∧
  (inBump = true → B.n = 0 → B.bmax 0 = Dbl.ninf)

/-- The invariant of the `while` loop of `bumps_set` when the pair `i` is about to be
examined; `X t` is `H->x[critical_idx[t]]`. -/
def bumps_inv (X : Nat → ℚ) (i : Nat) (s : bumps_state) : Prop :=
  1 ≤ s.nb ∧ ∃ L : ℚ, L * s.nb ≤ s.sum_b ∧ s.sum_b ≤ X i * s.nb ∧ bumps_chain s.B s.inBump L

/-- The ordering of a finished bump table with bumps `0 .. B.n`. -/
def bumps_sorted (B : phi_bumps) : Prop :=
  B.bleft 0 = Dbl.ninf ∧
  (∀ k, k ≤ B.n → B.bleft k ≤ B.bmax k) ∧
  (∀ k, k < B.n → B.bmax k ≤ B.bleft (k + 1))

/-! ## Sizes of the bump table -/

/-- The length `nB = H->npts` with which `bumps_set` allocates `bleft`, `bmax`, `bloss`. -/
def bumps_alloc (H : hermiteSpl) : Nat :=
  H.npts

/-- The index of the terminal sentinel written by `bumps_set` (lines 145-148): the value
of `B->n` after the final `B->n++`. -/
def bumps_sentinel_index (H : hermiteSpl) (loss_args : Nat → Dbl) : Nat :=
  (bumps_close loss_args (bumps_loop H)).n + 1

/-! ## Checked divisions

The same code, with every division `a / b` of `pchip_slope_monoFC`, `pchip_set` and
`util_value` replaced by a division that fails when the divisor is zero. -/

/-- What the `while` loop of `bumps_set` maintains about the loss scales: left edges of
the bumps `1 .. B.n` are finite and below the lower bound `L` of the running plateau, a
closed bump has a finite maximum below `L`, and every loss scale written so far is
positive. -/
def bumps_loss_chain (B : phi_bumps) (inBump : Bool) (L : ℚ) : Prop :=
  B.bleft 0 = Dbl.ninf ∧
  (∀ k, 1 ≤ k → k ≤ B.n → ∃ v, B.bleft k = Dbl.fin v ∧ v < L) ∧
  (inBump = false → ∃ u, B.bmax B.n = Dbl.fin u ∧ u < L) ∧
  Dbl.fin 0 < B.bloss 0 ∧
  (∀ k, 1 ≤ k → k < B.n → Dbl.fin 0 < B.bloss k) ∧
  (inBump = false → 1 ≤ B.n → Dbl.fin 0 < B.bloss B.n) ∧
  (inBump = true → B.n = 0 → B.bmax 0 = Dbl.ninf)

/-- The invariant of the `while` loop of `bumps_set` about the loss scales, when the pair
`i` is about to be examined; `X t` is `H->x[critical_idx[t]]`. -/
def bumps_loss_inv (X : Nat → ℚ) (i : Nat) (s : bumps_state) : Prop :=
  1 ≤ s.nb ∧ ∃ L : ℚ, L * s.nb ≤ s.sum_b ∧ s.sum_b ≤ X i * s.nb ∧
    bumps_loss_chain s.B s.inBump L

/-- The loss scales after lines 112-134 of `bumps_set`: all positive, except possibly
the one of a last, open-ended bump, which is still to be copied from its neighbour. -/
def bumps_loss_last (B : phi_bumps) : Prop :=
  1 ≤ B.n ∧
  Dbl.fin 0 < B.bloss 0 ∧
  (∀ k, 1 ≤ k → k < B.n → Dbl.fin 0 < B.bloss k) ∧
  (((B.bmax B.n).isFinite = true ∧ Dbl.fin 0 < B.bloss B.n) ∨
    (2 ≤ B.n ∧ (B.bmax B.n).isFinite = false))

/-! ## Invariants of the interior loss scales -/

/-- The closed form of the loss scale of an interior bump `k`: twice the distance from
its maximum to the nearer of its own left edge and the left edge of bump `k+1`. -/
def bumps_form (B : phi_bumps) (k : Nat) : Prop :=
  ∃ u v w : ℚ, B.bmax k = Dbl.fin u ∧ B.bleft k = Dbl.fin v ∧ B.bleft (k + 1) = Dbl.fin w ∧
    B.bloss k = Dbl.fin (2 * min (u - v) (w - u))

/-- What the `while` loop of `bumps_set` maintains about the values of the loss scales:
the facts of `bumps_loss_chain`, the closed form for every bump `1 <= k < B.n`, and
`bloss[B.n] = bmax[B.n] - bleft[B.n]` for a closed current bump `B.n >= 1`. -/
def bumps_form_chain (B : phi_bumps) (inBump : Bool) (L : ℚ) : Prop :=
  bumps_loss_chain B inBump L ∧
  (∀ k, 1 ≤ k → k < B.n → bumps_form B k) ∧
  (inBump = false → 1 ≤ B.n →
    ∃ u v : ℚ, B.bmax B.n = Dbl.fin u ∧ B.bleft B.n = Dbl.fin v ∧ v < u ∧
      B.bloss B.n = Dbl.fin (u - v))

/-- The invariant of the `while` loop of `bumps_set` about the values of the loss scales,
when the pair `i` is about to be examined; `X t` is `H->x[critical_idx[t]]`. -/
def bumps_form_inv (X : Nat → ℚ) (i : Nat) (s : bumps_state) : Prop :=
  1 ≤ s.nb ∧ ∃ L : ℚ, L * s.nb ≤ s.sum_b ∧ s.sum_b ≤ X i * s.nb ∧
    bumps_form_chain s.B s.inBump L

/-! ## Facts about `findInterval` -/

theorem findInterval_le {α : Type} [LE α] [DecidableRel (fun (u v : α) => u ≤ v)]
    (xt : Nat → α) (n : Nat) (v : α) : findInterval xt n v ≤ n := by
  induction n with
  | zero => simp [findInterval]
  | succ n ih =>
    simp only [findInterval]
    split <;> omega

theorem findInterval_all_le {α : Type} [LE α] [DecidableRel (fun (u v : α) => u ≤ v)]
    (xt : Nat → α) (n : Nat) (v : α) (h : ∀ i, i < n → xt i ≤ v) :
    findInterval xt n v = n := by
  induction n with
  | zero => simp [findInterval]
  | succ n ih =>
    have hn : xt n ≤ v := h n (Nat.lt_succ_self n)
    have ih1 := ih (fun i hi => h i (Nat.lt_succ_of_lt hi))
    simp [findInterval, hn, ih1]

theorem findInterval_split {α : Type} [LE α] [DecidableRel (fun (u v : α) => u ≤ v)]
    (xt : Nat → α) (k n : Nat) (v : α) (hk : k ≤ n) (hlo : ∀ i, i < k → xt i ≤ v)
    (hhi : ∀ i, k ≤ i → i < n → ¬ xt i ≤ v) : findInterval xt n v = k := by
  induction n with
  | zero =>
    have : k = 0 := by omega
    subst this
    simp [findInterval]
  | succ n ih =>
    by_cases hkn : k = n + 1
    · subst hkn
      exact findInterval_all_le xt (n + 1) v hlo
    · have hk1 : k ≤ n := by omega
      have ih1 := ih hk1 (fun i h1 h2 => hhi i h1 (Nat.lt_succ_of_lt h2))
      have hn : ¬ xt n ≤ v := hhi n hk1 (Nat.lt_succ_self n)
      simp [findInterval, hn, ih1]

/-- Adjacent strict increase gives strict increase between any two indices. -/
theorem strictMono_of_adjacent (x : Nat → ℚ) (n : Nat)
    (hx : ∀ i, i + 1 < n → x i < x (i + 1)) :
    ∀ i j, i < j → j < n → x i < x j := by
  intro i j hij
  induction j with
  | zero => omega
  | succ j ih =>
    intro hj
    by_cases h : i = j
    · subst h
      exact hx i hj
    · exact lt_trans (ih (by omega) (by omega)) (hx j hj)

theorem findInterval_below (x : Nat → ℚ) (n : Nat)
    (hx : ∀ i, i + 1 < n → x i < x (i + 1)) (v : ℚ) (hv : v < x 0) :
    findInterval x n v = 0 := by
  have hm := strictMono_of_adjacent x n hx
  apply findInterval_split x 0 n v (Nat.zero_le n)
  · intro i hi
    omega
  · intro i _ h2
    by_cases h : i = 0
    · subst h
      exact not_le.mpr hv
    · exact not_le.mpr (lt_trans hv (hm 0 i (by omega) h2))

theorem findInterval_above (x : Nat → ℚ) (n : Nat)
    (hx : ∀ i, i + 1 < n → x i < x (i + 1)) (v : ℚ) (hv : x (n - 1) ≤ v) :
    findInterval x n v = n := by
  have hm := strictMono_of_adjacent x n hx
  apply findInterval_all_le
  intro i hi
  by_cases h : i = n - 1
  · subst h
    exact hv
  · exact le_trans (le_of_lt (hm i (n - 1) (by omega) (by omega))) hv

/-! ## Facts about `pchip_val` -/

theorem rd_natCast (n : Nat) (arr : Nat → ℚ) (i : Nat) (hi : i < n) :
    rd n arr (i : Int) = some (arr i) := by
  simp [rd, hi]

/-- The linear branch of `pchip_val` below the first node. -/
theorem pchip_val_linear_low (H : hermiteSpl) (xval : ℚ) (hn : 0 < H.npts)
    (h0 : findInterval H.x H.npts xval = 0) :
    pchip_val H xval 0 = some (H.a 0 + H.b 0 * (xval - H.x 0)) := by
  have hne : ¬ ((0 : Int) = (H.npts : Int)) := by
    intro h
    have : (H.npts : Int) = 0 := h.symm
    omega
  have hr : ∀ arr : Nat → ℚ, rd H.npts arr (0 : Int) = some (arr 0) := by
    intro arr
    simpa using rd_natCast H.npts arr 0 hn
  simp [pchip_val, h0, hne, hr]

/-- The linear branch of `pchip_val` at or beyond the last node. -/
theorem pchip_val_linear_high (H : hermiteSpl) (xval : ℚ) (hn : 0 < H.npts)
    (h0 : findInterval H.x H.npts xval = H.npts) :
    pchip_val H xval 0 =
      some (H.a (H.npts - 1) + H.b (H.npts - 1) * (xval - H.x (H.npts - 1))) := by
  have hc : ((H.npts : Int) - 1) = ((H.npts - 1 : Nat) : Int) := by omega
  have hr : ∀ arr : Nat → ℚ, rd H.npts arr ((H.npts : Int) - 1) = some (arr (H.npts - 1)) := by
    intro arr
    rw [hc]
    exact rd_natCast H.npts arr (H.npts - 1) (by omega)
  simp [pchip_val, h0, hr]

theorem rd_linear_isSome (H : hermiteSpl) (xval : ℚ) (i : Int) :
    (match rd H.npts H.a i, rd H.npts H.b i, rd H.npts H.x i with
      | some a, some b, some x => some (a + b * (xval - x))
      | _, _, _ => none).isSome = true ↔ (0 ≤ i ∧ i < H.npts) := by
  by_cases hr : 0 ≤ i ∧ i < (H.npts : Int) <;> simp [rd, hr]

theorem rd_cubic_isSome (H : hermiteSpl) (xval : ℚ) (i : Int) :
    (match rd H.npts H.x i, rd H.npts H.a i, rd H.npts H.b i, rd H.npts H.c i,
        rd H.npts H.d i with
      | some x, some a, some b, some c, some d =>
        some (a + (xval - x) * (b + (xval - x) * (c + (xval - x) * d)))
      | _, _, _, _, _ => none).isSome = true ↔ (0 ≤ i ∧ i < H.npts) := by
  by_cases hr : 0 ≤ i ∧ i < (H.npts : Int) <;> simp [rd, hr]

/-- `pchip_val` returns a value exactly when the index it reads lies in `0 .. npts-1`. -/
theorem pchip_val_isSome_iff (H : hermiteSpl) (xval : ℚ) (extrapol : Int) :
    (pchip_val H xval extrapol).isSome = true ↔
      (0 ≤ pchip_val_index H xval extrapol ∧ pchip_val_index H xval extrapol < H.npts) := by
  unfold pchip_val pchip_val_index
  simp only
  split
  · exact rd_linear_isSome H xval _
  · exact rd_cubic_isSome H xval _

/-- In linear mode the index read by `pchip_val` is always in range. -/
theorem pchip_val_index_linear (H : hermiteSpl) (xval : ℚ) (hn : 0 < H.npts) :
    0 ≤ pchip_val_index H xval 0 ∧ pchip_val_index H xval 0 < H.npts := by
  have hle := findInterval_le H.x H.npts xval
  unfold pchip_val_index
  simp only
  split
  · split <;> omega
  · rename_i hc
    have h0 : ¬ ((findInterval H.x H.npts xval : Nat) : Int) = 0 := fun e => hc ⟨trivial, Or.inl e⟩
    have h1 : ¬ ((findInterval H.x H.npts xval : Nat) : Int) = (H.npts : Int) :=
      fun e => hc ⟨trivial, Or.inr e⟩
    omega

/-- In cubic mode the index read by `pchip_val` is in range as soon as `xval` is not below
the first node. -/
theorem pchip_val_index_cubic (H : hermiteSpl) (xval : ℚ) (extrapol : Int) (hn : 0 < H.npts)
    (hx : H.x 0 ≤ xval) :
    0 ≤ pchip_val_index H xval extrapol ∧ pchip_val_index H xval extrapol < H.npts := by
  have hle := findInterval_le H.x H.npts xval
  have hpos : 0 < findInterval H.x H.npts xval := by
    have key : ∀ m, 1 ≤ m → 1 ≤ findInterval H.x m xval := by
      intro m hm1
      induction m with
      | zero => omega
      | succ m ih =>
        by_cases e : m = 0
        · subst e
          simp [findInterval, hx]
        · have := ih (by omega)
          simp only [findInterval]
          omega
    exact key H.npts hn
  unfold pchip_val_index
  simp only
  split
  · split <;> omega
  · omega

theorem memcpy_of_lt (src : Nat → ℚ) (n i : Nat) (hi : i < n) : memcpy src n i = src i := by
  simp [memcpy, hi]

/-- C2. Extrapolation linearity: for every spline with `n >= 2` points and strictly
increasing `x`, whatever its `c` and `d` coefficients are replaced by, `pchip_val` in
linear mode returns `a[0] + b[0]*(xval - x[0])` when `xval < x[0]` and
`a[n-1] + b[n-1]*(xval - x[n-1])` when `xval >= x[n-1]`. -/
theorem pchip_val_extrapolation_linear (H : hermiteSpl) (c1 d1 : Nat → ℚ) (xval : ℚ)
    (hn : 2 ≤ H.npts) (hx : ∀ i, i + 1 < H.npts → H.x i < H.x (i + 1)) :
    (xval < H.x 0 →
      pchip_val { H with c := c1, d := d1 } xval 0
        = some (H.a 0 + H.b 0 * (xval - H.x 0))) ∧
    (H.x (H.npts - 1) ≤ xval →
      pchip_val { H with c := c1, d := d1 } xval 0
        = some (H.a (H.npts - 1) + H.b (H.npts - 1) * (xval - H.x (H.npts - 1)))) := by
  constructor
  · intro hv
    exact pchip_val_linear_low { H with c := c1, d := d1 } xval (by show 0 < H.npts; omega)
      (findInterval_below H.x H.npts hx xval hv)
  · intro hv
    exact pchip_val_linear_high { H with c := c1, d := d1 } xval (by show 0 < H.npts; omega)
      (findInterval_above H.x H.npts hx xval hv)

theorem peakSpline_increasing :
    ∀ i, i + 1 < peakSpline.npts → peakSpline.x i < peakSpline.x (i + 1) := by
  intro i hi
  have h3 : peakSpline.npts = 3 := rfl
  have h : i = 0 ∨ i = 1 := by omega
  rcases h with h | h <;> subst h <;> decide!

/-- A witness of C2: `peakSpline` with its `c` and `d` replaced by constants, evaluated
below the first node and beyond the last one. -/
theorem pchip_val_extrapolation_linear_witness :
    pchip_val { peakSpline with c := fun _ => 7, d := fun _ => 9 } (-1) 0 = some 0 ∧
    pchip_val { peakSpline with c := fun _ => 7, d := fun _ => 9 } 12 0 = some 0 :=
  ⟨by
    have h := (pchip_val_extrapolation_linear peakSpline (fun _ => 7) (fun _ => 9) (-1)
      (by decide) peakSpline_increasing).1 (by decide!)
    rw [h]
    decide!,
   by
    have h := (pchip_val_extrapolation_linear peakSpline (fun _ => 7) (fun _ => 9) 12
      (by decide) peakSpline_increasing).2 (by decide!)
    rw [h]
    decide!⟩

/-- C3, at a failing input. The control points `x = [0,1,2]`, `y = [0,1,5/4]` have
strictly increasing `x` and `y`; with the initial slopes `[4,1,0]` the slopes left by
`pchip_slope_monoFC` are `[4, 3/4, 0]`, and the relevance curve of the built spline
decreases between `11/16` and `23/32`. -/
theorem pchip_val_not_monotone :
    (∀ i, i + 1 < 3 → ofList [0, 1, 2] i < ofList [0, 1, 2] (i + 1)) ∧
    (∀ i, i + 1 < 3 → ofList [0, 1, 5 / 4] i < ofList [0, 1, 5 / 4] (i + 1)) ∧
    (List.range 3).map risingSpline.b = [4, 3 / 4, 0] ∧
    (11 / 16 : ℚ) ≤ 23 / 32 ∧
    pchip_val risingSpline (11 / 16) 0 = some (121352 / 131072) ∧
    pchip_val risingSpline (23 / 32) 0 = some (121325 / 131072) ∧
    (121325 / 131072 : ℚ) < 121352 / 131072 := by
  refine ⟨?_, ?_, by decide!, by decide!, by decide!, by decide!, by decide!⟩
  · intro i hi
    have h : i = 0 ∨ i = 1 := by omega
    rcases h with h | h <;> subst h <;> decide!
  · intro i hi
    have h : i = 0 ∨ i = 1 := by omega
    rcases h with h | h <;> subst h <;> decide!

/-- C4, at a failing input. In cubic mode (`extrapol = 1`) below the first node the
interval search returns `0`, the linear branch is skipped and `i--` gives the index `-1`:
`pchip_val` reads `x[-1]`, `a[-1]`, ... outside the arrays. -/
theorem pchip_val_cubic_below_range :
    twoPointSpline.npts = 2 ∧
    pchip_val_index twoPointSpline (-1) 1 = -1 ∧
    pchip_val twoPointSpline (-1) 1 = none := by
  refine ⟨rfl, by decide!, by decide!⟩


/-! ## Facts about the order of `Dbl` -/

@[simp] theorem Dbl.fin_le_fin (a b : ℚ) : (Dbl.fin a ≤ Dbl.fin b) ↔ a ≤ b := Iff.rfl

@[simp] theorem Dbl.fin_lt_fin (a b : ℚ) : (Dbl.fin a < Dbl.fin b) ↔ a < b := Iff.rfl

@[simp] theorem Dbl.ninf_le (a : Dbl) : Dbl.ninf ≤ a := by
  cases a <;> trivial

@[simp] theorem Dbl.le_pinf (a : Dbl) : a ≤ Dbl.pinf := by
  cases a <;> trivial

@[simp] theorem Dbl.not_lt_ninf (a : Dbl) : ¬ a < Dbl.ninf := by
  cases a <;> exact id

@[simp] theorem Dbl.not_pinf_lt (a : Dbl) : ¬ Dbl.pinf < a := by
  cases a <;> exact id

@[simp] theorem Dbl.ninf_lt_fin (a : ℚ) : Dbl.ninf < Dbl.fin a := trivial

@[simp] theorem Dbl.fin_lt_pinf (a : ℚ) : Dbl.fin a < Dbl.pinf := trivial

@[simp] theorem Dbl.not_fin_le_ninf (a : ℚ) : ¬ Dbl.fin a ≤ Dbl.ninf := id

@[simp] theorem Dbl.not_pinf_le_fin (a : ℚ) : ¬ Dbl.pinf ≤ Dbl.fin a := id

@[simp] theorem Dbl.not_pinf_le_ninf : ¬ Dbl.pinf ≤ Dbl.ninf := id

@[simp] theorem Dbl.ninf_lt_pinf : Dbl.ninf < Dbl.pinf := trivial

theorem Dbl.le_self (a : Dbl) : a ≤ a := by
  cases a with
  | ninf => trivial
  | fin q => exact (Dbl.fin_le_fin q q).mpr (le_refl q)
  | pinf => trivial

theorem Dbl.le_chain {a b c : Dbl} (h1 : a ≤ b) (h2 : b ≤ c) : a ≤ c := by
  cases a <;> cases b <;> cases c <;> simp_all
  exact le_trans h1 h2

theorem Dbl.not_le_iff_lt (a b : Dbl) : ¬ a ≤ b ↔ b < a := by
  cases a <;> cases b <;> simp

theorem Dbl.le_of_lt_dbl {a b : Dbl} (h : a < b) : a ≤ b := by
  cases a <;> cases b <;> simp_all
  exact le_of_lt h

/-! ## The utility score -/

theorem util_benef_zero (lb : Dbl) (h : Dbl.fin 0 < lb) : util_benef 0 lb = 1 := by
  cases lb with
  | ninf => exact absurd h (Dbl.not_lt_ninf _)
  | fin q =>
    have hq : (0 : ℚ) < q := h
    have h1 : ¬ q = 0 := ne_of_gt hq
    have h2 : ¬ q < 0 := not_lt.mpr (le_of_lt hq)
    simp [util_benef, Dbl.qdiv, h1, h2]
  | pinf => simp [util_benef, Dbl.qdiv]

theorem util_cost_zero (lc : Dbl) (h : Dbl.fin 0 < lc) : util_cost 0 lc = 0 := by
  cases lc with
  | ninf => exact absurd h (Dbl.not_lt_ninf _)
  | fin q =>
    have hq : (0 : ℚ) < q := h
    have h1 : ¬ q = 0 := ne_of_gt hq
    have h2 : ¬ q < 0 := not_lt.mpr (le_of_lt hq)
    simp [util_cost, Dbl.qdiv, h1, h2]
  | pinf => simp [util_cost, Dbl.qdiv]

theorem util_benef_range (l : ℚ) (hl : 0 ≤ l) (lb : Dbl) :
    0 ≤ util_benef l lb ∧ util_benef l lb ≤ 1 := by
  cases lb with
  | ninf => simp [util_benef]
  | fin q =>
    by_cases h : q = 0 ∨ q < l
    · simp [util_benef, h]
    · have h1 : ¬ q = 0 := fun e => h (Or.inl e)
      have h2 : l ≤ q := not_lt.mp (fun e => h (Or.inr e))
      have hq : 0 < q := lt_of_le_of_ne (le_trans hl h2) (Ne.symm h1)
      have hd1 : l / q ≤ 1 := (div_le_one hq).mpr h2
      have hd0 : 0 ≤ l / q := div_nonneg hl (le_of_lt hq)
      have hb : util_benef l (Dbl.fin q) = 1 - l / q := by
        simp [util_benef, Dbl.qdiv, h1, not_lt.mpr h2]
      rw [hb]
      constructor <;> linarith
  | pinf => simp [util_benef, Dbl.qdiv]

theorem util_cost_range (l : ℚ) (hl : 0 ≤ l) (lc : Dbl) :
    0 ≤ util_cost l lc ∧ util_cost l lc ≤ 1 := by
  cases lc with
  | ninf => simp [util_cost]
  | fin q =>
    by_cases h : q = 0 ∨ q < l
    · simp [util_cost, h]
    · have h1 : ¬ q = 0 := fun e => h (Or.inl e)
      have h2 : l ≤ q := not_lt.mp (fun e => h (Or.inr e))
      have hq : 0 < q := lt_of_le_of_ne (le_trans hl h2) (Ne.symm h1)
      have hd1 : l / q ≤ 1 := (div_le_one hq).mpr h2
      have hd0 : 0 ≤ l / q := div_nonneg hl (le_of_lt hq)
      have hb : util_cost l (Dbl.fin q) = l / q := by
        simp [util_cost, Dbl.qdiv, h1, not_lt.mpr h2]
      rw [hb]
      exact ⟨hd0, hd1⟩
  | pinf => simp [util_cost, Dbl.qdiv]

/-- C5. Utility boundary: for every actual value `y`, bump table, config and pair of
relevance values, when the tolerances `lb` and `lc` that `benefcost_lin` computes for the
perfect prediction `(y, y)` are both `> 0` (`+infinity` included), `util_value` has
benefit `1`, cost `0` and returns exactly `yPhi`. -/
theorem util_value_perfect (y : ℚ) (y_phiF ypred_phiF : phi_out) (phiF : phi_fun)
    (bumpI : phi_bumps) (utilF : util_fun)
    (hlb : Dbl.fin 0 < (benefcost_lin y y ypred_phiF.y_phi phiF bumpI).1)
    (hlc : Dbl.fin 0 < (benefcost_lin y y ypred_phiF.y_phi phiF bumpI).2.1) :
    util_benef |y - y| (benefcost_lin y y ypred_phiF.y_phi phiF bumpI).1 = 1 ∧
    util_cost |y - y| (benefcost_lin y y ypred_phiF.y_phi phiF bumpI).2.1 = 0 ∧
    util_value y y y_phiF ypred_phiF phiF bumpI utilF = y_phiF.y_phi := by
  have hl : |y - y| = 0 := by simp
  have hb := util_benef_zero _ hlb
  have hc := util_cost_zero _ hlc
  refine ⟨by rw [hl]; exact hb, by rw [hl]; exact hc, ?_⟩
  unfold util_value
  simp only [hl, hb, hc]
  ring

/-- A witness of C5: the peak `y = 5` of `peakSpline` with the table `peakBumps`, where
`lb = 5` and `lc = 10`. -/
theorem util_value_perfect_witness :
    util_value 5 5 ⟨1⟩ ⟨1⟩ ⟨0, peakSpline⟩ peakBumps ⟨1 / 2, 0, 0⟩ = 1 :=
  (util_value_perfect 5 ⟨1⟩ ⟨1⟩ ⟨0, peakSpline⟩ peakBumps ⟨1 / 2, 0, 0⟩
    (by decide!) (by decide!)).2.2

/-- C6. For every pair `(y, ypred)`, every relevance value and every bump table (whatever
`lb` and `lc` turn out to be: zero, negative, finite or infinite), the benefit and the cost
computed inside `util_value` lie in `[0, 1]`. -/
theorem util_value_benef_cost_range (y ypred ypred_phi : ℚ) (phiF : phi_fun)
    (bumpI : phi_bumps) :
    (0 ≤ util_benef |y - ypred| (benefcost_lin y ypred ypred_phi phiF bumpI).1 ∧
      util_benef |y - ypred| (benefcost_lin y ypred ypred_phi phiF bumpI).1 ≤ 1) ∧
    (0 ≤ util_cost |y - ypred| (benefcost_lin y ypred ypred_phi phiF bumpI).2.1 ∧
      util_cost |y - ypred| (benefcost_lin y ypred ypred_phi phiF bumpI).2.1 ≤ 1) :=
  ⟨util_benef_range _ (abs_nonneg _) _, util_cost_range _ (abs_nonneg _) _⟩

/-- C7, at a failing input. With `peakSpline`, `peakBumps`, `p = 1/2`, `y[0] = 5` and
`ypred[0] = 6` the relevance of the actual value is `1` and that of the predicted value
is `112/125`; the formula of the claim gives `1763/2500`, but `util_core` stores `7/10`,
the value obtained when the relevance of `y[0]` is used for both. -/
theorem util_core_ignores_ypred :
    phiSpl_value 5 ⟨0, peakSpline⟩ = some ⟨1⟩ ∧
    phiSpl_value 6 ⟨0, peakSpline⟩ = some ⟨112 / 125⟩ ∧
    util_value 5 6 ⟨1⟩ ⟨112 / 125⟩ ⟨0, peakSpline⟩ peakBumps ⟨1 / 2, 0, 0⟩ = 1763 / 2500 ∧
    util_value 5 6 ⟨1⟩ ⟨1⟩ ⟨0, peakSpline⟩ peakBumps ⟨1 / 2, 0, 0⟩ = 7 / 10 ∧
    util_core 1 (ofList [5]) (ofList [6]) ⟨0, peakSpline⟩ peakBumps ⟨1 / 2, 0, 0⟩ 0
      = some (7 / 10) := by
  refine ⟨by decide!, by decide!, by decide!, by decide!, by decide!⟩


/-! ## Loops as folds -/

/-- An invariant of a counted loop: it holds on entry and every iteration keeps it. -/
theorem foldl_range_invariant {σ : Type} (f : σ → Nat → σ) (P : Nat → σ → Prop) (init : σ)
    (n : Nat) (h0 : P 0 init) (hstep : ∀ i s, i < n → P i s → P (i + 1) (f s i)) :
    P n ((List.range n).foldl f init) := by
  induction n with
  | zero => simpa using h0
  | succ n ih =>
    rw [List.range_succ, List.foldl_append]
    simp only [List.foldl_cons, List.foldl_nil]
    exact hstep n _ (Nat.lt_succ_self n)
      (ih (fun i s hi hP => hstep i s (Nat.lt_succ_of_lt hi) hP))

/-! ## The critical indices -/

theorem critical_scan_inv (H : hermiteSpl) : critical_inv H.npts (critical_scan H) := by
  unfold critical_scan
  apply foldl_range_invariant _ critical_inv
  · exact ⟨Nat.le_refl 0, by intro t ht; omega, by intro t ht; omega⟩
  · intro i cj _ hP
    obtain ⟨h1, h2, h3⟩ := hP
    by_cases hb : |H.b i| = 0
    · simp only [hb, if_true]
      refine ⟨by simp only; omega, ?_, ?_⟩
      · intro t ht
        simp only at ht
        by_cases e : t = cj.2
        · subst e
          simp
        · have := h2 t (by omega)
          simp [Function.update, e]
          omega
      · intro t ht
        simp only at ht
        by_cases e : t + 1 = cj.2
        · have e1 : t ≠ cj.2 := by omega
          have := h2 t (by omega)
          simp [Function.update, e, e1]
          exact this
        · have e1 : t ≠ cj.2 := by omega
          have := h3 t (by omega)
          simp [Function.update, e, e1]
          exact this
    · simp only [hb, if_false]
      exact ⟨by omega, fun t ht => Nat.lt_succ_of_lt (h2 t ht), h3⟩

/-- When no slope `b[i]` is zero the list of critical indices is empty. -/
theorem critical_scan_empty (H : hermiteSpl) (hb : ∀ i, i < H.npts → H.b i ≠ 0) :
    (critical_scan H).2 = 0 := by
  unfold critical_scan
  apply foldl_range_invariant _ (fun _ (cj : (Nat → Nat) × Nat) => cj.2 = 0)
  · rfl
  · intro i cj hi hP
    have h : ¬ |H.b i| = 0 := by
      intro h0
      exact hb i hi (abs_eq_zero.mp h0)
    simp only [h, if_false]
    exact hP


/-! ## The bump table -/

theorem bloss_cur_n (c : ℚ) (B : phi_bumps) : (bloss_cur c B).n = B.n := by
  unfold bloss_cur
  split <;> rfl

theorem bloss_cur_bleft (c : ℚ) (B : phi_bumps) : (bloss_cur c B).bleft = B.bleft := by
  unfold bloss_cur
  split <;> rfl

theorem bloss_cur_bmax (c : ℚ) (B : phi_bumps) : (bloss_cur c B).bmax = B.bmax := by
  unfold bloss_cur
  split <;> rfl

theorem bloss_prev_n (B : phi_bumps) : (bloss_prev B).n = B.n := by
  unfold bloss_prev
  split
  · simp only
    split <;> rfl
  · rfl

theorem bloss_prev_bleft (B : phi_bumps) : (bloss_prev B).bleft = B.bleft := by
  unfold bloss_prev
  split
  · simp only
    split <;> rfl
  · rfl

theorem bloss_prev_bmax (B : phi_bumps) : (bloss_prev B).bmax = B.bmax := by
  unfold bloss_prev
  split
  · simp only
    split <;> rfl
  · rfl

/-- The running average lies between the lower bound and the last point of the plateau. -/
theorem avg_bounds (L U sum_b : ℚ) (nb : Nat) (hnb : 1 ≤ nb) (h1 : L * nb ≤ sum_b)
    (h2 : sum_b ≤ U * nb) : L ≤ sum_b / nb ∧ sum_b / nb ≤ U := by
  have hpos : (0 : ℚ) < nb := by exact_mod_cast hnb
  exact ⟨(le_div_iff₀ hpos).mpr h1, (div_le_iff₀ hpos).mpr h2⟩

/-- The chain survives a larger bound. -/
theorem bumps_chain_mono (B : phi_bumps) (inBump : Bool) (L L1 : ℚ) (hL : L ≤ L1)
    (h : bumps_chain B inBump L) : bumps_chain B inBump L1 := by
  obtain ⟨h1, h2, h3, h4, h5⟩ := h
  have hLL : Dbl.fin L ≤ Dbl.fin L1 := hL
  exact ⟨h1, h2, Dbl.le_chain h3 hLL,
    fun e => ⟨(h4 e).1, Dbl.le_chain (h4 e).2 hLL⟩, h5⟩

/-- Closing the rising run: `bmax[B->n]` receives the running average. -/
theorem bumps_chain_close (B : phi_bumps) (inBump : Bool) (L avg L1 : ℚ) (c : ℚ)
    (h : bumps_chain B inBump L) (ha : L ≤ avg) (hb : avg ≤ L1) :
    bumps_chain (bloss_cur c { B with bmax := Function.update B.bmax B.n (Dbl.fin avg) })
      false L1 := by
  obtain ⟨h1, h2, h3, _, _⟩ := h
  have hLa : Dbl.fin L ≤ Dbl.fin avg := ha
  have haL : Dbl.fin avg ≤ Dbl.fin L1 := hb
  unfold bumps_chain
  rw [bloss_cur_n, bloss_cur_bleft, bloss_cur_bmax]
  refine ⟨h1, ?_, Dbl.le_chain h3 (Dbl.le_chain hLa haL), ?_, ?_⟩
  · intro k hk
    have hk1 : k < B.n := hk
    have hne : k ≠ B.n := by omega
    simp only [Function.update_noteq hne]
    exact h2 k hk1
  · intro _
    simp only [Function.update_same]
    exact ⟨Dbl.le_chain h3 hLa, haL⟩
  · intro e
    exact absurd e (by decide)

/-- Opening a new bump: `B->n` is incremented and `bleft[B->n]` receives the running
average. -/
theorem bumps_chain_open (B : phi_bumps) (inBump : Bool) (L avg L1 : ℚ)
    (h : bumps_chain B inBump L) (ha : L ≤ avg) (hb : avg ≤ L1)
    (hc : inBump = false ∨ B.n = 0) :
    bumps_chain
      (bloss_prev { B with n := B.n + 1,
                           bleft := Function.update B.bleft (B.n + 1) (Dbl.fin avg) })
      true L1 := by
  obtain ⟨h1, h2, h3, h4, h5⟩ := h
  have hLa : Dbl.fin L ≤ Dbl.fin avg := ha
  have haL : Dbl.fin avg ≤ Dbl.fin L1 := hb
  unfold bumps_chain
  rw [bloss_prev_n, bloss_prev_bleft, bloss_prev_bmax]
  refine ⟨?_, ?_, ?_, ?_, ?_⟩
  · have hne : (0 : Nat) ≠ B.n + 1 := by omega
    simp only [Function.update_noteq hne]
    exact h1
  · intro k hk
    have hk1 : k < B.n + 1 := hk
    have hne : k ≠ B.n + 1 := by omega
    simp only [Function.update_noteq hne]
    by_cases e : k = B.n
    · subst e
      simp only [Function.update_same]
      cases hib : inBump with
      | false =>
        exact ⟨(h4 hib).1, Dbl.le_chain (h4 hib).2 hLa⟩
      | true =>
        have hn0 : B.n = 0 := by
          rcases hc with hc | hc
          · rw [hib] at hc
            exact absurd hc (by decide)
          · exact hc
        have hb0 := h5 hib hn0
        rw [hn0, hb0, h1]
        exact ⟨Dbl.ninf_le _, Dbl.ninf_le _⟩
    · have hk2 : k < B.n := by omega
      have hne1 : k + 1 ≠ B.n + 1 := by omega
      simp only [Function.update_noteq hne1]
      exact h2 k hk2
  · simp only [Function.update_same]
    exact haL
  · intro e
    exact absurd e (by decide)
  · intro _ e
    simp only at e
    omega

/-- The body of the `while` loop keeps the invariant. -/
theorem bumps_body_inv (H : hermiteSpl) (critical_idx : Nat → Nat) (i : Nat)
    (s : bumps_state)
    (hX : H.x (critical_idx i) < H.x (critical_idx (i + 1)))
    (hP : bumps_inv (fun t => H.x (critical_idx t)) i s) :
    bumps_inv (fun t => H.x (critical_idx t)) (i + 1) (bumps_body H critical_idx s i) := by
  obtain ⟨hnb, L, hL1, hL2, hch⟩ := hP
  simp only at hL2
  obtain ⟨ha1, ha2⟩ := avg_bounds L _ s.sum_b s.nb hnb hL1 hL2
  have hLX : L ≤ H.x (critical_idx (i + 1)) := le_trans (le_trans ha1 ha2) (le_of_lt hX)
  have haX : s.sum_b / s.nb ≤ H.x (critical_idx (i + 1)) := le_trans ha2 (le_of_lt hX)
  unfold bumps_body
  by_cases hd : H.a (critical_idx (i + 1)) - H.a (critical_idx i) = 0
  · simp only [hd, if_true]
    refine ⟨by simp only; omega, L, ?_, ?_, hch⟩
    · simp only
      push_cast
      linarith
    · simp only
      push_cast
      have hpos : (0 : ℚ) ≤ s.nb := by exact_mod_cast Nat.zero_le _
      nlinarith
  · simp only [hd, if_false]
    refine ⟨Nat.le_refl 1, H.x (critical_idx (i + 1)), by simp, by simp, ?_⟩
    simp only
    split
    · exact bumps_chain_close s.B s.inBump L _ _ 1 hch ha1 haX
    · split
      · rename_i _ hc
        exact bumps_chain_open s.B s.inBump L _ _ hch ha1 haX hc.2
      · exact bumps_chain_mono s.B s.inBump L _ hLX hch


theorem bumps_sorted_congr (B B1 : phi_bumps) (hn : B1.n = B.n) (hl : B1.bleft = B.bleft)
    (hm : B1.bmax = B.bmax) (h : bumps_sorted B) : bumps_sorted B1 := by
  unfold bumps_sorted at *
  rw [hn, hl, hm]
  exact h

theorem bumps_sorted_of_chain (B : phi_bumps) (L : ℚ) (h : bumps_chain B false L) :
    bumps_sorted B := by
  obtain ⟨h1, h2, _, h4, _⟩ := h
  refine ⟨h1, ?_, fun k hk => (h2 k hk).2⟩
  intro k hk
  by_cases e : k = B.n
  · subst e
    exact (h4 rfl).1
  · exact (h2 k (by omega)).1

/-- The final bump opened after the loop when the curve is still falling. -/
theorem bumps_sorted_last (B : phi_bumps) (L avg : ℚ) (h : bumps_chain B false L)
    (ha : L ≤ avg) :
    bumps_sorted
      (bloss_prev { n := B.n + 1
                    bleft := Function.update B.bleft (B.n + 1) (Dbl.fin avg)
                    bmax := Function.update B.bmax (B.n + 1) Dbl.pinf
                    bloss := B.bloss }) := by
  obtain ⟨h1, h2, _, h4, _⟩ := h
  have hLa : Dbl.fin L ≤ Dbl.fin avg := ha
  unfold bumps_sorted
  rw [bloss_prev_n, bloss_prev_bleft, bloss_prev_bmax]
  refine ⟨?_, ?_, ?_⟩
  · have hne : (0 : Nat) ≠ B.n + 1 := by omega
    simp only [Function.update_noteq hne]
    exact h1
  · intro k hk
    have hk1 : k ≤ B.n + 1 := hk
    by_cases e : k = B.n + 1
    · subst e
      simp only [Function.update_same]
      exact Dbl.le_pinf _
    · simp only [Function.update_noteq e]
      by_cases e1 : k = B.n
      · subst e1
        exact (h4 rfl).1
      · exact (h2 k (by omega)).1
  · intro k hk
    have hk1 : k < B.n + 1 := hk
    have hne : k ≠ B.n + 1 := by omega
    simp only [Function.update_noteq hne]
    by_cases e1 : k = B.n
    · subst e1
      simp only [Function.update_same]
      exact Dbl.le_chain (h4 rfl).2 hLa
    · have hne1 : k + 1 ≠ B.n + 1 := by omega
      simp only [Function.update_noteq hne1]
      exact (h2 k (by omega)).2

theorem ite_bloss_fields (c : Prop) [Decidable c] (B : phi_bumps) (f : Nat → Dbl) :
    (if c then { B with bloss := f } else B).n = B.n ∧
    (if c then { B with bloss := f } else B).bleft = B.bleft ∧
    (if c then { B with bloss := f } else B).bmax = B.bmax := by
  split <;> exact ⟨rfl, rfl, rfl⟩

theorem bumps_extrapol_n (B : phi_bumps) : (bumps_extrapol B).n = B.n :=
  (ite_bloss_fields _ _ _).1.trans (ite_bloss_fields _ B _).1

theorem bumps_extrapol_bleft (B : phi_bumps) : (bumps_extrapol B).bleft = B.bleft :=
  (ite_bloss_fields _ _ _).2.1.trans (ite_bloss_fields _ B _).2.1

theorem bumps_extrapol_bmax (B : phi_bumps) : (bumps_extrapol B).bmax = B.bmax :=
  (ite_bloss_fields _ _ _).2.2.trans (ite_bloss_fields _ B _).2.2

/-- The table left by the code after the loop is ordered. -/
theorem bumps_close_sorted (loss_args : Nat → Dbl) (X : Nat → ℚ) (i : Nat) (s : bumps_state)
    (hP : bumps_inv X i s) : bumps_sorted (bumps_close loss_args s) := by
  obtain ⟨hnb, L, hL1, hL2, hch⟩ := hP
  obtain ⟨ha1, _⟩ := avg_bounds L _ s.sum_b s.nb hnb hL1 hL2
  unfold bumps_close
  by_cases hn : s.B.n > 0
  · simp only [hn, if_true]
    apply bumps_sorted_congr _ _ (bumps_extrapol_n _) (bumps_extrapol_bleft _)
      (bumps_extrapol_bmax _)
    unfold bumps_last
    cases hib : s.inBump with
    | true =>
      simp only [if_true]
      exact bumps_sorted_of_chain _ _
        (bumps_chain_close s.B s.inBump L _ _ 2 hch ha1 (le_refl _))
    | false =>
      simp only [Bool.false_eq_true, if_false]
      rw [hib] at hch
      exact bumps_sorted_last s.B L _ hch ha1
  · simp only [hn, if_false]
    have hn0 : s.B.n = 0 := by omega
    obtain ⟨h1, _, _, _, _⟩ := hch
    refine ⟨h1, ?_, ?_⟩
    · intro k hk
      have hk0 : k = 0 := by
        have : k ≤ s.B.n := hk
        omega
      subst hk0
      show s.B.bleft 0 ≤ s.B.bmax 0
      rw [h1]
      exact Dbl.ninf_le _
    · intro k hk
      have : k < s.B.n := hk
      omega

/-- The invariant holds when the `while` loop of `bumps_set` is left. -/
theorem bumps_loop_inv (H : hermiteSpl) (hx : ∀ i, i + 1 < H.npts → H.x i < H.x (i + 1)) :
    bumps_inv (fun t => H.x ((critical_scan H).1 t)) ((critical_scan H).2 - 1)
      (bumps_loop H) := by
  obtain ⟨_, hc2, hc3⟩ := critical_scan_inv H
  have hm := strictMono_of_adjacent H.x H.npts hx
  unfold bumps_loop
  apply foldl_range_invariant _ (bumps_inv (fun t => H.x ((critical_scan H).1 t)))
  · refine ⟨Nat.le_refl 1, H.x ((critical_scan H).1 0), by simp [bumps_init],
      by simp [bumps_init], ?_⟩
    refine ⟨by simp [bumps_init], ?_, by simp [bumps_init], ?_, by simp [bumps_init]⟩
    · intro k hk
      have : k < 0 := hk
      omega
    · intro e
      exact absurd e (by simp [bumps_init])
  · intro i s hi hP
    apply bumps_body_inv H _ i s _ hP
    exact hm _ _ (hc3 i (by omega)) (hc2 (i + 1) (by omega))

/-- The table returned by `bumps_set`: at least one bump, `bleft[0] = -infinity`, and the
boundaries `bleft[0], bmax[0], bleft[1], bmax[1], ...` of the `B.n` bumps in order. -/
theorem bumps_set_sorted (H : hermiteSpl) (loss_args : Nat → Dbl)
    (hx : ∀ i, i + 1 < H.npts → H.x i < H.x (i + 1)) :
    1 ≤ (bumps_set H loss_args).n ∧
    (bumps_set H loss_args).bleft 0 = Dbl.ninf ∧
    (∀ k, k < (bumps_set H loss_args).n →
      (bumps_set H loss_args).bleft k ≤ (bumps_set H loss_args).bmax k) ∧
    (∀ k, k + 1 < (bumps_set H loss_args).n →
      (bumps_set H loss_args).bmax k ≤ (bumps_set H loss_args).bleft (k + 1)) := by
  obtain ⟨h1, h2, h3⟩ := bumps_close_sorted loss_args _ _ _ (bumps_loop_inv H hx)
  unfold bumps_set
  simp only
  refine ⟨by omega, ?_, ?_, ?_⟩
  · have hne : (0 : Nat) ≠ (bumps_close loss_args (bumps_loop H)).n + 1 := by omega
    rw [Function.update_noteq hne]
    exact h1
  · intro k hk
    have hne : k ≠ (bumps_close loss_args (bumps_loop H)).n + 1 := by omega
    rw [Function.update_noteq hne, Function.update_noteq hne]
    exact h2 k (by omega)
  · intro k hk
    have hne : k ≠ (bumps_close loss_args (bumps_loop H)).n + 1 := by omega
    have hne1 : k + 1 ≠ (bumps_close loss_args (bumps_loop H)).n + 1 := by omega
    rw [Function.update_noteq hne, Function.update_noteq hne1]
    exact h3 k (by omega)


theorem Dbl.lt_le_cycle {a b c : Dbl} (h1 : a < b) (h2 : b ≤ c) (h3 : c ≤ a) : False := by
  cases a <;> cases b <;> cases c <;> simp_all
  linarith

/-- Adjacent order gives order between any two cells. -/
theorem dbl_mono_of_adjacent (f : Nat → Dbl) (n : Nat)
    (h : ∀ k, k + 1 < n → f k ≤ f (k + 1)) :
    ∀ k l, k ≤ l → l < n → f k ≤ f l := by
  intro k l hkl
  induction l with
  | zero =>
    intro _
    have : k = 0 := by omega
    subst this
    exact Dbl.le_self _
  | succ l ih =>
    intro hl
    by_cases e : k = l + 1
    · subst e
      exact Dbl.le_self _
    · exact Dbl.le_chain (ih (by omega) (by omega)) (h l hl)

/-- On a non-decreasing array the interval search returns the length of the prefix of
cells that are `<= v`. -/
theorem findInterval_spec (xt : Nat → Dbl) (n : Nat) (v : Dbl)
    (hm : ∀ k l, k ≤ l → l < n → xt k ≤ xt l) :
    (∀ i, i < findInterval xt n v → xt i ≤ v) ∧
    (∀ i, findInterval xt n v ≤ i → i < n → ¬ xt i ≤ v) := by
  induction n with
  | zero =>
    refine ⟨?_, ?_⟩
    · intro i hi
      simp [findInterval] at hi
    · intro i _ hi
      omega
  | succ n ih =>
    obtain ⟨ih1, ih2⟩ := ih (fun k l hkl hl => hm k l hkl (Nat.lt_succ_of_lt hl))
    by_cases hn : xt n ≤ v
    · have hall : ∀ i, i < n + 1 → xt i ≤ v := by
        intro i hi
        exact Dbl.le_chain (hm i n (by omega) (Nat.lt_succ_self n)) hn
      rw [findInterval_all_le xt (n + 1) v hall]
      exact ⟨hall, by intro i h1 h2; omega⟩
    · have e : findInterval xt (n + 1) v = findInterval xt n v := by
        simp [findInterval, hn]
      rw [e]
      refine ⟨ih1, ?_⟩
      intro i h1 h2
      by_cases e1 : i = n
      · subst e1
        exact hn
      · exact ih2 i h1 (by omega)

/-- The index used by `benefcost_lin` on an ordered table whose first left edge is
`-infinity`: the bump that contains `y`. -/
theorem benefcost_index_spec (B : phi_bumps) (y : ℚ) (hn : 1 ≤ B.n)
    (h0 : B.bleft 0 = Dbl.ninf)
    (hm : ∀ k l, k ≤ l → l < B.n → B.bleft k ≤ B.bleft l) :
    benefcost_index y B < B.n ∧
    B.bleft (benefcost_index y B) ≤ Dbl.fin y ∧
    (benefcost_index y B + 1 < B.n → Dbl.fin y < B.bleft (benefcost_index y B + 1)) := by
  unfold benefcost_index
  by_cases h1 : B.n > 1
  · simp only [h1, if_true]
    obtain ⟨s1, s2⟩ := findInterval_spec B.bleft B.n (Dbl.fin y) hm
    have hle := findInterval_le B.bleft B.n (Dbl.fin y)
    have hpos : 0 < findInterval B.bleft B.n (Dbl.fin y) := by
      by_contra hc
      have hz : findInterval B.bleft B.n (Dbl.fin y) = 0 := by omega
      have := s2 0 (by omega) (by omega)
      rw [h0] at this
      exact this (Dbl.ninf_le _)
    simp only [hpos, if_true]
    refine ⟨by omega, s1 _ (by omega), ?_⟩
    intro hlt
    have e : findInterval B.bleft B.n (Dbl.fin y) - 1 + 1
        = findInterval B.bleft B.n (Dbl.fin y) := by omega
    rw [e]
    rw [e] at hlt
    exact (Dbl.not_le_iff_lt _ _).mp (s2 _ (Nat.le_refl _) hlt)
  · simp only [h1, if_false]
    have hn1 : B.n = 1 := by omega
    simp only [Nat.lt_irrefl, Nat.zero_lt_one, if_true, Nat.sub_self]
    refine ⟨by omega, by rw [h0]; exact Dbl.ninf_le _, ?_⟩
    intro hlt
    omega

/-- At most one bump of an ordered table contains `y`. -/
theorem bump_unique (bleft : Nat → Dbl) (n : Nat) (v : Dbl)
    (hm : ∀ k l, k ≤ l → l < n → bleft k ≤ bleft l) (i k : Nat)
    (hi : i < n) (hi1 : bleft i ≤ v) (hi2 : i + 1 < n → v < bleft (i + 1))
    (hk : k < n) (hk1 : bleft k ≤ v) (hk2 : k + 1 < n → v < bleft (k + 1)) : k = i := by
  rcases Nat.lt_trichotomy k i with h | h | h
  · exact absurd (Dbl.lt_le_cycle (hk2 (by omega)) (hm (k + 1) i (by omega) hi) hi1) id
  · exact h
  · exact absurd (Dbl.lt_le_cycle (hi2 (by omega)) (hm (i + 1) k (by omega) hk) hk1) id

/-- The left edges of the table returned by `bumps_set` are non-decreasing. -/
theorem bumps_set_bleft_mono (H : hermiteSpl) (loss_args : Nat → Dbl)
    (hx : ∀ i, i + 1 < H.npts → H.x i < H.x (i + 1)) :
    ∀ k l, k ≤ l → l < (bumps_set H loss_args).n →
      (bumps_set H loss_args).bleft k ≤ (bumps_set H loss_args).bleft l := by
  obtain ⟨_, _, h3, h4⟩ := bumps_set_sorted H loss_args hx
  apply dbl_mono_of_adjacent
  intro k hk
  exact Dbl.le_chain (h3 k (by omega)) (h4 k hk)

/-- C8. Bump partition: for every spline with strictly increasing `x` (in particular every
one with `n >= 2` points) and every `loss_args`, the table `B` returned by `bumps_set` has
`B.n >= 1` bumps and `bleft[0] = -infinity`; the interleaved boundaries
`bleft[0] <= bmax[0] <= bleft[1] <= ... <= bleft[B.n-1] <= bmax[B.n-1]` are in order, so
`bleft` alone and `bmax` alone are non-decreasing; and every real `y` lies in exactly one
interval `[bleft[k], bleft[k+1])`, the last one being unbounded. -/
theorem bumps_set_partition (H : hermiteSpl) (loss_args : Nat → Dbl)
    (hx : ∀ i, i + 1 < H.npts → H.x i < H.x (i + 1)) :
    1 ≤ (bumps_set H loss_args).n ∧
    (bumps_set H loss_args).bleft 0 = Dbl.ninf ∧
    (∀ k, k < (bumps_set H loss_args).n →
      (bumps_set H loss_args).bleft k ≤ (bumps_set H loss_args).bmax k) ∧
    (∀ k, k + 1 < (bumps_set H loss_args).n →
      (bumps_set H loss_args).bmax k ≤ (bumps_set H loss_args).bleft (k + 1)) ∧
    (∀ k l, k ≤ l → l < (bumps_set H loss_args).n →
      (bumps_set H loss_args).bleft k ≤ (bumps_set H loss_args).bleft l) ∧
    (∀ k l, k ≤ l → l < (bumps_set H loss_args).n →
      (bumps_set H loss_args).bmax k ≤ (bumps_set H loss_args).bmax l) ∧
    (∀ y : ℚ, ∃! k, k < (bumps_set H loss_args).n ∧
      (bumps_set H loss_args).bleft k ≤ Dbl.fin y ∧
      (k + 1 < (bumps_set H loss_args).n →
        Dbl.fin y < (bumps_set H loss_args).bleft (k + 1))) := by
  obtain ⟨h1, h2, h3, h4⟩ := bumps_set_sorted H loss_args hx
  have hm := bumps_set_bleft_mono H loss_args hx
  refine ⟨h1, h2, h3, h4, hm, ?_, ?_⟩
  · apply dbl_mono_of_adjacent
    intro k hk
    exact Dbl.le_chain (h4 k hk) (h3 (k + 1) hk)
  · intro y
    obtain ⟨s1, s2, s3⟩ := benefcost_index_spec (bumps_set H loss_args) y h1 h2 hm
    refine ⟨benefcost_index y (bumps_set H loss_args), ⟨s1, s2, s3⟩, ?_⟩
    rintro k ⟨k1, k2, k3⟩
    exact bump_unique _ _ (Dbl.fin y) hm _ k s1 s2 s3 k1 k2 k3

/-- C9. Bump lookup: for the table `B` that `bumps_set` returns from a spline with strictly
increasing `x`, and every real `y`, the index `i` that `benefcost_lin` uses after the
interval search and the decrement satisfies `i < B.n`, `bleft[i] <= y` and
`y < bleft[i+1]` whenever `i+1 < B.n`; it is the only such index, and it is `0` when
`B.n = 1`. -/
theorem benefcost_index_bump (H : hermiteSpl) (loss_args : Nat → Dbl) (y : ℚ)
    (hx : ∀ i, i + 1 < H.npts → H.x i < H.x (i + 1)) :
    benefcost_index y (bumps_set H loss_args) < (bumps_set H loss_args).n ∧
    (bumps_set H loss_args).bleft (benefcost_index y (bumps_set H loss_args)) ≤ Dbl.fin y ∧
    (benefcost_index y (bumps_set H loss_args) + 1 < (bumps_set H loss_args).n →
      Dbl.fin y
        < (bumps_set H loss_args).bleft (benefcost_index y (bumps_set H loss_args) + 1)) ∧
    (∀ k, k < (bumps_set H loss_args).n →
      (bumps_set H loss_args).bleft k ≤ Dbl.fin y →
      (k + 1 < (bumps_set H loss_args).n →
        Dbl.fin y < (bumps_set H loss_args).bleft (k + 1)) →
      k = benefcost_index y (bumps_set H loss_args)) ∧
    ((bumps_set H loss_args).n = 1 → benefcost_index y (bumps_set H loss_args) = 0) := by
  obtain ⟨h1, h2, _, _⟩ := bumps_set_sorted H loss_args hx
  have hm := bumps_set_bleft_mono H loss_args hx
  obtain ⟨s1, s2, s3⟩ := benefcost_index_spec (bumps_set H loss_args) y h1 h2 hm
  refine ⟨s1, s2, s3, ?_, ?_⟩
  · intro k k1 k2 k3
    exact bump_unique _ _ (Dbl.fin y) hm _ k s1 s2 s3 k1 k2 k3
  · intro e
    omega

/-- C10. Degenerate no-plateau input: for every spline in which no slope `b[i]`,
`i < npts`, is zero (in particular every such spline with `n >= 2` points) and every
`loss_args`, `bumps_set` returns a table with exactly one bump, `bleft[0] = -infinity`,
whose `bloss[0]` is the fallback loss scale `loss_args[2]`. -/
theorem bumps_set_no_plateau (H : hermiteSpl) (loss_args : Nat → Dbl)
    (hb : ∀ i, i < H.npts → H.b i ≠ 0) :
    (bumps_set H loss_args).n = 1 ∧
    (bumps_set H loss_args).bleft 0 = Dbl.ninf ∧
    (bumps_set H loss_args).bloss 0 = loss_args 2 := by
  have hj := critical_scan_empty H hb
  have hl : bumps_loop H = bumps_init H (critical_scan H).1 := by
    unfold bumps_loop
    simp only [hj]
    rfl
  unfold bumps_set
  rw [hl]
  simp [bumps_close, bumps_init]

/-- A witness of C8: the table of `peakSpline` has three bumps with the boundaries
`-inf <= -inf <= 0 <= 5 <= 10 <= +inf`. -/
theorem bumps_set_partition_witness :
    1 ≤ peakBumps.n ∧ peakBumps.bleft 0 = Dbl.ninf ∧
    (∀ k, k < peakBumps.n → peakBumps.bleft k ≤ peakBumps.bmax k) ∧
    (∀ k, k + 1 < peakBumps.n → peakBumps.bmax k ≤ peakBumps.bleft (k + 1)) :=
  ⟨(bumps_set_partition peakSpline (fun _ => Dbl.fin 1) peakSpline_increasing).1,
   (bumps_set_partition peakSpline (fun _ => Dbl.fin 1) peakSpline_increasing).2.1,
   (bumps_set_partition peakSpline (fun _ => Dbl.fin 1) peakSpline_increasing).2.2.1,
   (bumps_set_partition peakSpline (fun _ => Dbl.fin 1) peakSpline_increasing).2.2.2.1⟩

/-- A witness of C9: in the table of `peakSpline` the value `y = 7` belongs to the bump
whose index `benefcost_lin` computes. -/
theorem benefcost_index_bump_witness :
    benefcost_index 7 peakBumps < peakBumps.n ∧
    peakBumps.bleft (benefcost_index 7 peakBumps) ≤ Dbl.fin 7 :=
  ⟨(benefcost_index_bump peakSpline (fun _ => Dbl.fin 1) 7 peakSpline_increasing).1,
   (benefcost_index_bump peakSpline (fun _ => Dbl.fin 1) 7 peakSpline_increasing).2.1⟩

theorem slopedSpline_no_zero : ∀ i, i < slopedSpline.npts → slopedSpline.b i ≠ 0 := by
  intro i hi
  have h2 : slopedSpline.npts = 2 := rfl
  have h : i = 0 ∨ i = 1 := by omega
  rcases h with h | h <;> subst h <;> decide!

/-- A witness of C10: `slopedSpline` has two points and no zero slope; its table has one
bump whose loss scale is the fallback `7`. -/
theorem bumps_set_no_plateau_witness :
    2 ≤ slopedSpline.npts ∧
    (bumps_set slopedSpline (fun _ => Dbl.fin 7)).n = 1 ∧
    (bumps_set slopedSpline (fun _ => Dbl.fin 7)).bleft 0 = Dbl.ninf ∧
    (bumps_set slopedSpline (fun _ => Dbl.fin 7)).bloss 0 = Dbl.fin 7 :=
  ⟨by decide, bumps_set_no_plateau slopedSpline (fun _ => Dbl.fin 7) slopedSpline_no_zero⟩

/-! ## The slope filter -/

/-- Step `k` of `pchip_slope_monoFC` writes only `m[k]` and `m[k+1]`. -/
theorem pchip_slope_monoFC_body_other (sqrt : ℚ → ℚ) (delta m : Nat → ℚ) (k i : Nat)
    (h1 : i ≠ k) (h2 : i ≠ k + 1) : pchip_slope_monoFC_body sqrt delta m k i = m i := by
  unfold pchip_slope_monoFC_body
  simp only
  split_ifs <;> simp [Function.update, h1, h2]

/-- A zero slope `m[k]` is left at zero by step `k`. -/
theorem pchip_slope_monoFC_body_zero_left (sqrt : ℚ → ℚ) (delta m : Nat → ℚ) (k : Nat)
    (h : m k = 0) : pchip_slope_monoFC_body sqrt delta m k k = 0 := by
  unfold pchip_slope_monoFC_body
  simp only
  split_ifs <;> simp_all [Function.update]

/-- A zero slope `m[k+1]` is left at zero by step `k`. -/
theorem pchip_slope_monoFC_body_zero_right (sqrt : ℚ → ℚ) (delta m : Nat → ℚ) (k : Nat)
    (h : m (k + 1) = 0) : pchip_slope_monoFC_body sqrt delta m k (k + 1) = 0 := by
  unfold pchip_slope_monoFC_body
  simp only
  split_ifs <;> simp_all [Function.update]

/-- On a flat segment step `k` sets both slopes to zero. -/
theorem pchip_slope_monoFC_body_flat (sqrt : ℚ → ℚ) (delta m : Nat → ℚ) (k : Nat)
    (h : delta k = 0) :
    pchip_slope_monoFC_body sqrt delta m k k = 0 ∧
    pchip_slope_monoFC_body sqrt delta m k (k + 1) = 0 := by
  unfold pchip_slope_monoFC_body
  simp [h, Function.update]
/-- The slope `v` after the sign repair against the divided difference `S`. -/
theorem sign_repair_nonneg (v S : ℚ) :
    0 ≤ (if |v| ≠ 0 ∧ v / S < 0 then -v else v) / S := by
  split_ifs with h
  · rw [neg_div]
    linarith [h.2]
  · by_cases hv : v = 0
    · simp [hv]
    · have h1 : ¬ v / S < 0 := fun e => h ⟨by simpa using hv, e⟩
      exact not_lt.mp h1

/-- What step `k` of `pchip_slope_monoFC` leaves in `m[k]` and `m[k+1]` on a segment that
is not flat. -/
theorem pchip_slope_monoFC_body_eval (sqrt : ℚ → ℚ) (delta m : Nat → ℚ) (k : Nat)
    (hS : delta k ≠ 0) (vk vk1 alpha beta : ℚ)
    (hvk : vk = if |m k| ≠ 0 ∧ m k / delta k < 0 then -(m k) else m k)
    (hvk1 : vk1 = if |m (k + 1)| ≠ 0 ∧ m (k + 1) / delta k < 0 then -(m (k + 1)) else m (k + 1))
    (ha : alpha = vk / delta k) (hb : beta = vk1 / delta k) :
    pchip_slope_monoFC_body sqrt delta m k k =
      (if 2 * alpha + beta - 3 > 0 ∧ alpha + 2 * beta - 3 > 0 ∧
          alpha * (2 * alpha + beta - 3 + (alpha + 2 * beta - 3))
            < (2 * alpha + beta - 3) * (2 * alpha + beta - 3)
        then 3 * delta k / sqrt (alpha * alpha + beta * beta) * alpha else vk) ∧
    pchip_slope_monoFC_body sqrt delta m k (k + 1) =
      (if 2 * alpha + beta - 3 > 0 ∧ alpha + 2 * beta - 3 > 0 ∧
          alpha * (2 * alpha + beta - 3 + (alpha + 2 * beta - 3))
            < (2 * alpha + beta - 3) * (2 * alpha + beta - 3)
        then 3 * delta k / sqrt (alpha * alpha + beta * beta) * beta else vk1) := by
  have hS1 : ¬ |delta k| = 0 := by simpa using hS
  subst ha hb hvk hvk1
  unfold pchip_slope_monoFC_body
  simp only [hS1, if_false]
  by_cases c1 : |m k| ≠ 0 ∧ m k / delta k < 0 <;>
  by_cases c2 : |m (k + 1)| ≠ 0 ∧ m (k + 1) / delta k < 0 <;>
  simp only [c1, c2, if_true, if_false, not_false_eq_true, and_self, Function.update_same,
    Function.update_noteq (Nat.succ_ne_self k), ne_eq] <;>
  split_ifs <;>
  simp [Function.update]
theorem sign_repair_key (S v r : ℚ) (hS : S ≠ 0) (hv : 0 ≤ v / S) (hr : 0 ≤ r) :
    0 ≤ v * S ∧ 0 ≤ 3 * S / r * (v / S) * S := by
  have hsq : 0 ≤ S * S := mul_self_nonneg _
  have h1 : v * S = v / S * (S * S) := by
    field_simp
    ring
  have h2 : 3 * S / r * (v / S) * S = 3 * (v / S) * (S * S) / r := by
    ring
  refine ⟨by rw [h1]; exact mul_nonneg hv hsq, ?_⟩
  rw [h2]
  exact div_nonneg (mul_nonneg (mul_nonneg (by norm_num) hv) hsq) hr

/-- After step `k` neither `m[k]` nor `m[k+1]` points against the divided difference
`delta[k]`, as soon as `sqrt` returns no negative number. -/
theorem pchip_slope_monoFC_body_sign (sqrt : ℚ → ℚ) (hs : ∀ t, 0 ≤ sqrt t)
    (delta m : Nat → ℚ) (k : Nat) :
    0 ≤ pchip_slope_monoFC_body sqrt delta m k k * delta k ∧
    0 ≤ pchip_slope_monoFC_body sqrt delta m k (k + 1) * delta k := by
  by_cases hS : delta k = 0
  · simp [hS]
  · obtain ⟨vk, hvk⟩ : ∃ vk, vk = if |m k| ≠ 0 ∧ m k / delta k < 0 then -(m k) else m k :=
      ⟨_, rfl⟩
    obtain ⟨vk1, hvk1⟩ : ∃ vk1,
        vk1 = if |m (k + 1)| ≠ 0 ∧ m (k + 1) / delta k < 0 then -(m (k + 1)) else m (k + 1) :=
      ⟨_, rfl⟩
    obtain ⟨e1, e2⟩ := pchip_slope_monoFC_body_eval sqrt delta m k hS vk vk1 _ _ hvk hvk1 rfl rfl
    have ha : 0 ≤ vk / delta k := by
      rw [hvk]
      exact sign_repair_nonneg (m k) (delta k)
    have hb : 0 ≤ vk1 / delta k := by
      rw [hvk1]
      exact sign_repair_nonneg (m (k + 1)) (delta k)
    rw [e1, e2]
    refine ⟨?_, ?_⟩
    · split_ifs
      · exact (sign_repair_key _ _ _ hS ha (hs _)).2
      · exact (sign_repair_key _ _ 1 hS ha zero_le_one).1
    · split_ifs
      · exact (sign_repair_key _ _ _ hS hb (hs _)).2
      · exact (sign_repair_key _ _ 1 hS hb zero_le_one).1

/-- After the pass, a slope that starts a segment does not point against it. -/
theorem pchip_slope_monoFC_sign_prefix (sqrt : ℚ → ℚ) (hs : ∀ t, 0 ≤ sqrt t)
    (delta m : Nat → ℚ) (N : Nat) :
    ∀ k, k < N →
      0 ≤ (List.range N).foldl (pchip_slope_monoFC_body sqrt delta) m k * delta k := by
  apply foldl_range_invariant (pchip_slope_monoFC_body sqrt delta)
    (fun j (m1 : Nat → ℚ) => ∀ k, k < j → 0 ≤ m1 k * delta k)
  · intro k hk
    omega
  · intro j m1 _ hP k hk
    by_cases e : k = j
    · subst e
      exact (pchip_slope_monoFC_body_sign sqrt hs delta m1 k).1
    · rw [pchip_slope_monoFC_body_other sqrt delta m1 j k e (by omega)]
      exact hP k (by omega)

/-- After the pass, a flat segment has zero slopes at both ends. -/
theorem pchip_slope_monoFC_flat_prefix (sqrt : ℚ → ℚ) (delta m : Nat → ℚ) (N k : Nat)
    (hd : delta k = 0) (hk : k < N) :
    (List.range N).foldl (pchip_slope_monoFC_body sqrt delta) m k = 0 ∧
    (List.range N).foldl (pchip_slope_monoFC_body sqrt delta) m (k + 1) = 0 := by
  have h := foldl_range_invariant (pchip_slope_monoFC_body sqrt delta)
    (fun j (m1 : Nat → ℚ) => k < j → m1 k = 0 ∧ m1 (k + 1) = 0) m N
    (by intro hk0; omega)
    (by
      intro j m1 _ hP hkj
      by_cases e : k = j
      · subst e
        exact pchip_slope_monoFC_body_flat sqrt delta m1 k hd
      · obtain ⟨z1, z2⟩ := hP (by omega)
        refine ⟨?_, ?_⟩
        · rw [pchip_slope_monoFC_body_other sqrt delta m1 j k e (by omega)]
          exact z1
        · by_cases e1 : k + 1 = j
          · subst e1
            exact pchip_slope_monoFC_body_zero_left sqrt delta m1 (k + 1) z2
          · rw [pchip_slope_monoFC_body_other sqrt delta m1 j (k + 1) e1 (by omega)]
            exact z2)
  exact h hk

/-- C13. Flat segments produce critical points: for every input with `n >= 2` points
(strictly increasing `x` included), any `y`, any initial slopes and any `sqrt`, and every
segment `k <= n-2` whose divided difference `(y[k+1]-y[k])/(x[k+1]-x[k])` is `0`, the
finished spline has `b[k] = 0` and `b[k+1] = 0`. -/
theorem pchip_set_flat_segment (sqrt : ℚ → ℚ) (n : Nat) (x y m : Nat → ℚ) (hn : 2 ≤ n)
    (k : Nat) (hk : k + 1 < n)
    (hd : (y (k + 1) - y k) / (x (k + 1) - x k) = 0) :
    (pchip_set sqrt n x y m).b k = 0 ∧ (pchip_set sqrt n x y m).b (k + 1) = 0 := by
  have hk1 : k < n - 1 := by omega
  have hdel : pchip_delta n x y k = 0 := by
    simp [pchip_delta, pchip_h, hk1, hd]
  obtain ⟨z1, z2⟩ := pchip_slope_monoFC_flat_prefix sqrt (pchip_delta n x y) m (n - 1) k hdel hk1
  have e1 : (pchip_set sqrt n x y m).b k = pchip_slope_monoFC sqrt n m (pchip_delta n x y) k :=
    memcpy_of_lt _ n k (by omega)
  have e2 : (pchip_set sqrt n x y m).b (k + 1)
      = pchip_slope_monoFC sqrt n m (pchip_delta n x y) (k + 1) :=
    memcpy_of_lt _ n (k + 1) hk
  rw [e1, e2]
  exact ⟨z1, z2⟩

/-- C19. Sign repair: when `sqrt` returns no negative number, the slopes returned by
`pchip_slope_monoFC` for `n >= 2` points, any divided differences and any initial slopes
satisfy `m[k]*delta[k] >= 0` for every `k <= n-2` and `m[n-1]*delta[n-2] >= 0`; the same
holds for the slopes `b` of the spline built by `pchip_set` and its divided differences. -/
theorem pchip_slope_monoFC_sign_repair (sqrt : ℚ → ℚ) (hs : ∀ t, 0 ≤ sqrt t) (n : Nat)
    (hn : 2 ≤ n) :
    (∀ m delta : Nat → ℚ,
      (∀ k, k + 1 < n → 0 ≤ pchip_slope_monoFC sqrt n m delta k * delta k) ∧
      0 ≤ pchip_slope_monoFC sqrt n m delta (n - 1) * delta (n - 2)) ∧
    (∀ x y m : Nat → ℚ,
      (∀ k, k + 1 < n → 0 ≤ (pchip_set sqrt n x y m).b k * pchip_delta n x y k) ∧
      0 ≤ (pchip_set sqrt n x y m).b (n - 1) * pchip_delta n x y (n - 2)) := by
  have main : ∀ m delta : Nat → ℚ,
      (∀ k, k + 1 < n → 0 ≤ pchip_slope_monoFC sqrt n m delta k * delta k) ∧
      0 ≤ pchip_slope_monoFC sqrt n m delta (n - 1) * delta (n - 2) := by
    intro m delta
    refine ⟨?_, ?_⟩
    · intro k hk
      exact pchip_slope_monoFC_sign_prefix sqrt hs delta m (n - 1) k (by omega)
    · have e : n - 1 = (n - 2) + 1 := by omega
      unfold pchip_slope_monoFC
      rw [e, List.range_succ, List.foldl_append]
      simp only [List.foldl_cons, List.foldl_nil]
      exact (pchip_slope_monoFC_body_sign sqrt hs delta _ (n - 2)).2
  refine ⟨main, ?_⟩
  intro x y m
  obtain ⟨h1, h2⟩ := main m (pchip_delta n x y)
  refine ⟨?_, ?_⟩
  · intro k hk
    have e1 : (pchip_set sqrt n x y m).b k
        = pchip_slope_monoFC sqrt n m (pchip_delta n x y) k :=
      memcpy_of_lt _ n k (by omega)
    rw [e1]
    exact h1 k hk
  · have e1 : (pchip_set sqrt n x y m).b (n - 1)
        = pchip_slope_monoFC sqrt n m (pchip_delta n x y) (n - 1) :=
      memcpy_of_lt _ n (n - 1) (by omega)
    rw [e1]
    exact h2
/-- A witness of C13: the control points `x = [0,1,2]`, `y = [0,0,1]` with the initial
slopes `[1,1,1]`; segment `0` is flat. -/
theorem pchip_set_flat_segment_witness :
    (pchip_set Rat.sqrt 3 (ofList [0, 1, 2]) (ofList [0, 0, 1]) (ofList [1, 1, 1])).b 0 = 0 ∧
    (pchip_set Rat.sqrt 3 (ofList [0, 1, 2]) (ofList [0, 0, 1]) (ofList [1, 1, 1])).b 1 = 0 :=
  pchip_set_flat_segment Rat.sqrt 3 (ofList [0, 1, 2]) (ofList [0, 0, 1]) (ofList [1, 1, 1])
    (by decide) 0 (by decide) (by decide!)

/-- A witness of C19: `Rat.sqrt` returns no negative number, and the middle slope of
`risingSpline` does not point against segment `1`. -/
theorem pchip_slope_monoFC_sign_repair_witness :
    0 ≤ risingSpline.b 1 * pchip_delta 3 (ofList [0, 1, 2]) (ofList [0, 1, 5 / 4]) 1 :=
  ((pchip_slope_monoFC_sign_repair Rat.sqrt Rat.sqrt_nonneg 3 (by decide)).2
    (ofList [0, 1, 2]) (ofList [0, 1, 5 / 4]) (ofList [4, 1, 0])).1 1 (by decide)

/-! ## More on the spline -/

/-- Initial slopes that are all zero are left at zero by `pchip_slope_monoFC`. -/
theorem pchip_slope_monoFC_zero (sqrt : ℚ → ℚ) (n : Nat) (m delta : Nat → ℚ)
    (hm : ∀ i, i < n → m i = 0) :
    ∀ i, i < n → pchip_slope_monoFC sqrt n m delta i = 0 := by
  unfold pchip_slope_monoFC
  apply foldl_range_invariant (pchip_slope_monoFC_body sqrt delta)
    (fun _ (m1 : Nat → ℚ) => ∀ i, i < n → m1 i = 0)
  · exact hm
  · intro j m1 hj hP i hi
    by_cases e : i = j
    · subst e
      exact pchip_slope_monoFC_body_zero_left sqrt delta m1 i (hP i hi)
    · by_cases e1 : i = j + 1
      · subst e1
        exact pchip_slope_monoFC_body_zero_right sqrt delta m1 j (hP (j + 1) hi)
      · rw [pchip_slope_monoFC_body_other sqrt delta m1 j i e e1]
        exact hP i hi

/-- With zero initial slopes the built spline does not depend on `sqrt`. -/
theorem pchip_set_zero_slopes (sqrt sqrt1 : ℚ → ℚ) (n : Nat) (x y m : Nat → ℚ)
    (hm : ∀ i, i < n → m i = 0) :
    pchip_set sqrt n x y m = pchip_set sqrt1 n x y m := by
  have hz := pchip_slope_monoFC_zero sqrt n m (pchip_delta n x y) hm
  have hz1 := pchip_slope_monoFC_zero sqrt1 n m (pchip_delta n x y) hm
  unfold pchip_set
  simp only [hermiteSpl.mk.injEq, true_and]
  refine ⟨?_, ?_, ?_⟩
  · funext i
    by_cases hi : i < n
    · simp [memcpy, hi, hz i hi, hz1 i hi]
    · simp [memcpy, hi]
  · funext i
    by_cases hi : i < n - 1
    · simp [hi, hz i (by omega), hz1 i (by omega), hz (i + 1) (by omega), hz1 (i + 1) (by omega)]
    · simp [hi]
  · funext i
    by_cases hi : i < n - 1
    · simp [hi, hz i (by omega), hz1 i (by omega), hz (i + 1) (by omega), hz1 (i + 1) (by omega)]
    · simp [hi]

/-- Once a bump has been opened in the loop, `loss_args` is not read. -/
theorem bumps_set_loss_args (H : hermiteSpl) (f g : Nat → Dbl) (h : 0 < (bumps_loop H).B.n) :
    bumps_set H f = bumps_set H g := by
  unfold bumps_set bumps_close
  simp [h]

theorem ofList_zero3 : ∀ i, i < 3 → ofList [0, 0, 0] i = 0 := by
  intro i hi
  have h : i = 0 ∨ i = 1 ∨ i = 2 := by omega
  rcases h with h | h | h <;> subst h <;> rfl

/-- C11. Concrete scenario: for the control points `x = [0,5,10]`, `y = [0,1,0]` with
initial slopes `[0,0,0]`, whatever `sqrt` and `loss_args` are, `pchip_set` followed by
`bumps_set` yields three bumps: the first, open-ended one has `bleft = -infinity`, the
interior one runs from `bleft = 0` to `bmax = 5`, the last, open-ended one has
`bmax = +infinity`; and `pchip_val(H, 5, cubic)` is exactly `1`. -/
theorem peak_scenario (sqrt : ℚ → ℚ) (loss_args : Nat → Dbl) :
    (bumps_set (pchip_set sqrt 3 (ofList [0, 5, 10]) (ofList [0, 1, 0]) (ofList [0, 0, 0]))
      loss_args).n = 3 ∧
    (bumps_set (pchip_set sqrt 3 (ofList [0, 5, 10]) (ofList [0, 1, 0]) (ofList [0, 0, 0]))
      loss_args).bleft 0 = Dbl.ninf ∧
    (bumps_set (pchip_set sqrt 3 (ofList [0, 5, 10]) (ofList [0, 1, 0]) (ofList [0, 0, 0]))
      loss_args).bleft 1 = Dbl.fin 0 ∧
    (bumps_set (pchip_set sqrt 3 (ofList [0, 5, 10]) (ofList [0, 1, 0]) (ofList [0, 0, 0]))
      loss_args).bmax 1 = Dbl.fin 5 ∧
    (bumps_set (pchip_set sqrt 3 (ofList [0, 5, 10]) (ofList [0, 1, 0]) (ofList [0, 0, 0]))
      loss_args).bleft 2 = Dbl.fin 10 ∧
    (bumps_set (pchip_set sqrt 3 (ofList [0, 5, 10]) (ofList [0, 1, 0]) (ofList [0, 0, 0]))
      loss_args).bmax 2 = Dbl.pinf ∧
    pchip_val (pchip_set sqrt 3 (ofList [0, 5, 10]) (ofList [0, 1, 0]) (ofList [0, 0, 0])) 5 1
      = some 1 := by
  have hH : pchip_set sqrt 3 (ofList [0, 5, 10]) (ofList [0, 1, 0]) (ofList [0, 0, 0])
      = peakSpline :=
    pchip_set_zero_slopes sqrt Rat.sqrt 3 _ _ _ ofList_zero3
  have hB : bumps_set peakSpline loss_args = peakBumps :=
    bumps_set_loss_args peakSpline loss_args _ (by decide!)
  rw [hH, hB]
  refine ⟨by decide!, by decide!, by decide!, by decide!, by decide!, by decide!, by decide!⟩

theorem bumps_set_n_sentinel (H : hermiteSpl) (loss_args : Nat → Dbl) :
    (bumps_set H loss_args).n = bumps_sentinel_index H loss_args := rfl

/-- C12, at a failing input. For the three control points `x = [0,5,10]`, `y = [0,1,0]`,
slopes `[0,0,0]` the arrays `bleft`, `bmax`, `bloss` are allocated with length `3`, and
the terminal sentinel is written at index `3`, the final value of `B->n`: one past the
end, whatever `loss_args` is. -/
theorem bumps_set_sentinel_overflow (loss_args : Nat → Dbl) :
    peakSpline.npts = 3 ∧
    bumps_alloc peakSpline = 3 ∧
    bumps_sentinel_index peakSpline loss_args = 3 ∧
    (bumps_set peakSpline loss_args).n = 3 ∧
    ¬ bumps_sentinel_index peakSpline loss_args < bumps_alloc peakSpline := by
  have hB : bumps_set peakSpline loss_args = peakBumps :=
    bumps_set_loss_args peakSpline loss_args _ (by decide!)
  have h3 : bumps_sentinel_index peakSpline loss_args = 3 := by
    rw [← bumps_set_n_sentinel, hB]
    decide!
  refine ⟨rfl, rfl, h3, by rw [hB]; decide!, ?_⟩
  rw [h3]
  decide

/-- C14, at a failing input. For `risingSpline` (`x = [0,1,2]`, `y = [0,1,5/4]`, initial
slopes `[4,1,0]`) segment `0` has the divided difference `1` and the final slopes
`b[0] = 4`, `b[1] = 3/4`; with `alpha = 4` and `beta = 3/4` all three conditions that
place the pair outside the monotonicity region hold. -/
theorem pchip_set_outside_region :
    pchip_delta 3 (ofList [0, 1, 2]) (ofList [0, 1, 5 / 4]) 0 ≠ 0 ∧
    risingSpline.b 0 / pchip_delta 3 (ofList [0, 1, 2]) (ofList [0, 1, 5 / 4]) 0 = 4 ∧
    risingSpline.b 1 / pchip_delta 3 (ofList [0, 1, 2]) (ofList [0, 1, 5 / 4]) 0 = 3 / 4 ∧
    (2 * (4 : ℚ) + 3 / 4 - 3 > 0 ∧ (4 : ℚ) + 2 * (3 / 4) - 3 > 0 ∧
      (4 : ℚ) * (3 * 4 + 3 * (3 / 4) - 6) < (2 * 4 + 3 / 4 - 3) ^ 2) := by
  refine ⟨by decide!, by decide!, by decide!, by norm_num⟩

/-- The index read by `pchip_val` in linear mode when the search returns `0`. -/
theorem pchip_val_index_low (H : hermiteSpl) (xval : ℚ) (hn : 0 < H.npts)
    (h0 : findInterval H.x H.npts xval = 0) : pchip_val_index H xval 0 = 0 := by
  have hne : ¬ ((0 : Int) = (H.npts : Int)) := by omega
  simp [pchip_val_index, h0, hne]

/-- The index read by `pchip_val` in linear mode when the search returns `npts`. -/
theorem pchip_val_index_high (H : hermiteSpl) (xval : ℚ)
    (h0 : findInterval H.x H.npts xval = H.npts) :
    pchip_val_index H xval 0 = (H.npts : Int) - 1 := by
  simp [pchip_val_index, h0]

/-- C15 fails as stated: beyond the last node of `peakSpline` (`n = 3`, `xval = 12`) the
index used in linear mode is `2`, not `n-2 = 1`, and the value returned is `0`, not
`a[1] + b[1]*(12 - x[1]) = 1`. -/
theorem pchip_val_clamp_counterexample :
    peakSpline.npts = 3 ∧ peakSpline.x 2 < 12 ∧
    pchip_val_index peakSpline 12 0 = 2 ∧
    pchip_val peakSpline 12 0 = some 0 ∧
    peakSpline.a 1 + peakSpline.b 1 * (12 - peakSpline.x 1) = 1 ∧
    pchip_val peakSpline 12 0
      ≠ some (peakSpline.a 1 + peakSpline.b 1 * (12 - peakSpline.x 1)) := by
  refine ⟨rfl, by decide!, by decide!, by decide!, by decide!, by decide!⟩

/-- C15, amended. Linear extrapolation clamps to node `0` or node `n-1`: for every spline
with `n >= 2` points and strictly increasing `x`, in linear mode, when `xval < x[0]` the
evaluator uses the index `0` and returns `a[0] + b[0]*(xval - x[0])`, and when
`xval > x[n-1]` it uses the index `n-1` and returns `a[n-1] + b[n-1]*(xval - x[n-1])`. -/
theorem pchip_val_linear_clamp (H : hermiteSpl) (xval : ℚ) (hn : 2 ≤ H.npts)
    (hx : ∀ i, i + 1 < H.npts → H.x i < H.x (i + 1)) :
    (xval < H.x 0 →
      pchip_val_index H xval 0 = 0 ∧
      pchip_val H xval 0 = some (H.a 0 + H.b 0 * (xval - H.x 0))) ∧
    (H.x (H.npts - 1) < xval →
      pchip_val_index H xval 0 = (H.npts : Int) - 1 ∧
      pchip_val H xval 0
        = some (H.a (H.npts - 1) + H.b (H.npts - 1) * (xval - H.x (H.npts - 1)))) := by
  constructor
  · intro hv
    have h0 := findInterval_below H.x H.npts hx xval hv
    exact ⟨pchip_val_index_low H xval (by omega) h0, pchip_val_linear_low H xval (by omega) h0⟩
  · intro hv
    have h0 := findInterval_above H.x H.npts hx xval (le_of_lt hv)
    exact ⟨pchip_val_index_high H xval h0, pchip_val_linear_high H xval (by omega) h0⟩

/-- A witness of C15 as amended: `peakSpline` beyond its last node. -/
theorem pchip_val_linear_clamp_witness :
    pchip_val_index peakSpline 12 0 = ((peakSpline.npts : Int) - 1) ∧
    pchip_val peakSpline 12 0
      = some (peakSpline.a (peakSpline.npts - 1)
          + peakSpline.b (peakSpline.npts - 1) * (12 - peakSpline.x (peakSpline.npts - 1))) :=
  (pchip_val_linear_clamp peakSpline 12 (by decide) peakSpline_increasing).2 (by decide!)

theorem Dbl.twice_pos (d : Dbl) (h : Dbl.fin 0 < d) : Dbl.fin 0 < Dbl.twice d := by
  cases d with
  | ninf => exact absurd h (Dbl.not_lt_ninf _)
  | fin a =>
    have ha : (0 : ℚ) < a := h
    show (0 : ℚ) < 2 * a
    linarith
  | pinf => trivial

theorem bloss_cur_bloss_other (c : ℚ) (B : phi_bumps) (k : Nat) (hk : k ≠ B.n) :
    (bloss_cur c B).bloss k = B.bloss k := by
  unfold bloss_cur
  split
  · simp only [Function.update_noteq hk]
  · rfl

theorem bloss_cur_bloss_ninf (c : ℚ) (B : phi_bumps) (h : B.bleft B.n = Dbl.ninf) :
    (bloss_cur c B).bloss = B.bloss := by
  unfold bloss_cur
  split
  · rename_i u v hu hv
    rw [h] at hv
    exact absurd hv (by simp)
  · rfl

theorem bloss_cur_bloss_fin (c : ℚ) (B : phi_bumps) (u v : ℚ) (hu : B.bmax B.n = Dbl.fin u)
    (hv : B.bleft B.n = Dbl.fin v) :
    (bloss_cur c B).bloss B.n = Dbl.fin (c * |u - v|) := by
  unfold bloss_cur
  rw [hu, hv]
  simp only [Function.update_same]

theorem bloss_prev_bloss_other (B : phi_bumps) (k : Nat) (hk : k ≠ B.n - 1) :
    (bloss_prev B).bloss k = B.bloss k := by
  unfold bloss_prev
  split
  · simp only
    split <;> simp only [Function.update_noteq hk]
  · rfl

/-- The widened loss scale of the previous bump is positive when it was positive and the
previous maximum lies strictly left of the new left edge. -/
theorem bloss_prev_bloss_pos (B : phi_bumps) (hpos : Dbl.fin 0 < B.bloss (B.n - 1))
    (hd : ∀ u v, B.bmax (B.n - 1) = Dbl.fin u → B.bleft B.n = Dbl.fin v → u < v) :
    Dbl.fin 0 < (bloss_prev B).bloss (B.n - 1) := by
  unfold bloss_prev
  split
  · rename_i u v hu hv
    have huv := hd u v hu hv
    have hab : 0 < |u - v| := abs_pos.mpr (by linarith)
    simp only
    split
    · simp only [Function.update_same]
      show (0 : ℚ) < 2 * |u - v|
      linarith
    · simp only [Function.update_same]
      exact Dbl.twice_pos _ hpos
  · exact hpos
theorem bumps_loss_chain_mono (B : phi_bumps) (inBump : Bool) (L L1 : ℚ) (hL : L ≤ L1)
    (h : bumps_loss_chain B inBump L) : bumps_loss_chain B inBump L1 := by
  obtain ⟨h1, h2, h3, h4, h5, h6, h7⟩ := h
  refine ⟨h1, ?_, ?_, h4, h5, h6, h7⟩
  · intro k k1 k2
    obtain ⟨v, hv, hvL⟩ := h2 k k1 k2
    exact ⟨v, hv, lt_of_lt_of_le hvL hL⟩
  · intro e
    obtain ⟨u, hu, huL⟩ := h3 e
    exact ⟨u, hu, lt_of_lt_of_le huL hL⟩

/-- The loss scale written when the rising run of bump `B.n` is closed is positive. -/
theorem bloss_cur_close_pos (B : phi_bumps) (inBump : Bool) (L avg c : ℚ) (hc : 0 < c)
    (h : bumps_loss_chain B inBump L) (ha : L ≤ avg) (hn : 1 ≤ B.n) :
    Dbl.fin 0 <
      (bloss_cur c { B with bmax := Function.update B.bmax B.n (Dbl.fin avg) }).bloss B.n := by
  obtain ⟨_, h2, _, _, _, _, _⟩ := h
  obtain ⟨v, hv, hvL⟩ := h2 B.n hn (Nat.le_refl _)
  have e := bloss_cur_bloss_fin c { B with bmax := Function.update B.bmax B.n (Dbl.fin avg) }
    avg v (by simp only [Function.update_same]) hv
  simp only at e
  rw [e]
  have hab : 0 < |avg - v| := abs_pos.mpr (by linarith)
  show (0 : ℚ) < c * |avg - v|
  exact mul_pos hc hab

/-- The loss scales of the other bumps are untouched when bump `B.n` is closed. -/
theorem bloss_cur_close_other (B : phi_bumps) (avg c : ℚ) (h0 : B.bleft 0 = Dbl.ninf)
    (k : Nat) (hk : k ≠ B.n ∨ B.n = 0) :
    (bloss_cur c { B with bmax := Function.update B.bmax B.n (Dbl.fin avg) }).bloss k
      = B.bloss k := by
  by_cases e : B.n = 0
  · have hnil : ({ B with bmax := Function.update B.bmax B.n (Dbl.fin avg) } : phi_bumps).bleft
        ({ B with bmax := Function.update B.bmax B.n (Dbl.fin avg) } : phi_bumps).n
        = Dbl.ninf := by
      show B.bleft B.n = Dbl.ninf
      rw [e]
      exact h0
    rw [bloss_cur_bloss_ninf c _ hnil]
  · have hk1 : k ≠ B.n := by
      rcases hk with hk | hk
      · exact hk
      · exact absurd hk e
    exact bloss_cur_bloss_other c _ k hk1

/-- Closing the rising run keeps the loss invariant. -/
theorem bumps_loss_chain_close (B : phi_bumps) (inBump : Bool) (L avg L1 : ℚ)
    (h : bumps_loss_chain B inBump L) (ha : L ≤ avg) (hb : avg < L1) :
    bumps_loss_chain (bloss_cur 1 { B with bmax := Function.update B.bmax B.n (Dbl.fin avg) })
      false L1 := by
  have hpos := bloss_cur_close_pos B inBump L avg 1 one_pos h ha
  obtain ⟨h1, h2, _, h4, h5, _, _⟩ := h
  unfold bumps_loss_chain
  rw [bloss_cur_n, bloss_cur_bleft, bloss_cur_bmax]
  refine ⟨h1, ?_, ?_, ?_, ?_, ?_, ?_⟩
  · intro k k1 k2
    obtain ⟨v, hv, hvL⟩ := h2 k k1 k2
    exact ⟨v, hv, by linarith⟩
  · intro _
    exact ⟨avg, by simp only [Function.update_same], hb⟩
  · by_cases e : B.n = 0
    · rw [bloss_cur_close_other B avg 1 h1 0 (Or.inr e)]
      exact h4
    · rw [bloss_cur_close_other B avg 1 h1 0 (Or.inl (fun e0 => e e0.symm))]
      exact h4
  · intro k k1 k2
    have k3 : k < B.n := k2
    rw [bloss_cur_close_other B avg 1 h1 k (Or.inl (by omega))]
    exact h5 k k1 k3
  · intro _ hn
    exact hpos hn
  · intro e
    exact absurd e (by decide)

/-- Opening a bump keeps the loss invariant. -/
theorem bumps_loss_chain_open (B : phi_bumps) (inBump : Bool) (L avg L1 : ℚ)
    (h : bumps_loss_chain B inBump L) (ha : L ≤ avg) (hb : avg < L1)
    (hc : inBump = false ∨ B.n = 0) :
    bumps_loss_chain
      (bloss_prev { B with n := B.n + 1,
                           bleft := Function.update B.bleft (B.n + 1) (Dbl.fin avg) })
      true L1 := by
  obtain ⟨h1, h2, h3, h4, h5, h6, h7⟩ := h
  have hprev : Dbl.fin 0 < B.bloss B.n := by
    by_cases e : B.n = 0
    · rw [e]
      exact h4
    · rcases hc with hc | hc
      · exact h6 hc (by omega)
      · exact absurd hc e
  have hgap : ∀ u v, B.bmax B.n = Dbl.fin u →
      Function.update B.bleft (B.n + 1) (Dbl.fin avg) (B.n + 1) = Dbl.fin v → u < v := by
    intro u v hu hv
    simp only [Function.update_same, Dbl.fin.injEq] at hv
    cases hib : inBump with
    | false =>
      obtain ⟨u1, hu1, hu1L⟩ := h3 hib
      rw [hu] at hu1
      have e : u = u1 := by simpa using hu1
      rw [e, ← hv]
      linarith
    | true =>
      have hn0 : B.n = 0 := by
        rcases hc with hc | hc
        · rw [hib] at hc
          exact absurd hc (by decide)
        · exact hc
      have := h7 hib hn0
      rw [hn0] at hu
      rw [this] at hu
      exact absurd hu (by simp)
  have hnew := bloss_prev_bloss_pos
    { B with n := B.n + 1, bleft := Function.update B.bleft (B.n + 1) (Dbl.fin avg) }
    (by simpa using hprev) (by simpa using hgap)
  simp only [Nat.add_sub_cancel] at hnew
  unfold bumps_loss_chain
  rw [bloss_prev_n, bloss_prev_bleft, bloss_prev_bmax]
  refine ⟨?_, ?_, ?_, ?_, ?_, ?_, ?_⟩
  · have hne : (0 : Nat) ≠ B.n + 1 := by omega
    simp only [Function.update_noteq hne]
    exact h1
  · intro k k1 k2
    have k3 : k ≤ B.n + 1 := k2
    by_cases e : k = B.n + 1
    · subst e
      exact ⟨avg, by simp only [Function.update_same], hb⟩
    · simp only [Function.update_noteq e]
      obtain ⟨v, hv, hvL⟩ := h2 k k1 (by omega)
      exact ⟨v, hv, by linarith⟩
  · intro e
    exact absurd e (by decide)
  · by_cases e : B.n = 0
    · have e0 : ∀ f : Nat → Dbl, Dbl.fin 0 < f B.n → Dbl.fin 0 < f 0 := by
        intro f hf
        rw [e] at hf
        exact hf
      exact e0 _ hnew
    · rw [bloss_prev_bloss_other _ 0 (by simp only [Nat.add_sub_cancel]; omega)]
      exact h4
  · intro k k1 k2
    have k3 : k < B.n + 1 := k2
    by_cases e : k = B.n
    · subst e
      exact hnew
    · rw [bloss_prev_bloss_other _ k (by simp only [Nat.add_sub_cancel]; exact e)]
      exact h5 k k1 (by omega)
  · intro e
    exact absurd e (by decide)
  · intro _ e
    simp only at e
    omega
/-- The body of the `while` loop keeps the loss invariant. -/
theorem bumps_body_loss_inv (H : hermiteSpl) (critical_idx : Nat → Nat) (i : Nat)
    (s : bumps_state)
    (hX : H.x (critical_idx i) < H.x (critical_idx (i + 1)))
    (hP : bumps_loss_inv (fun t => H.x (critical_idx t)) i s) :
    bumps_loss_inv (fun t => H.x (critical_idx t)) (i + 1) (bumps_body H critical_idx s i) := by
  obtain ⟨hnb, L, hL1, hL2, hch⟩ := hP
  simp only at hL2
  obtain ⟨ha1, ha2⟩ := avg_bounds L _ s.sum_b s.nb hnb hL1 hL2
  have hLX : L ≤ H.x (critical_idx (i + 1)) := le_trans (le_trans ha1 ha2) (le_of_lt hX)
  have haX : s.sum_b / s.nb < H.x (critical_idx (i + 1)) := lt_of_le_of_lt ha2 hX
  unfold bumps_body
  by_cases hd : H.a (critical_idx (i + 1)) - H.a (critical_idx i) = 0
  · simp only [hd, if_true]
    refine ⟨by simp only; omega, L, ?_, ?_, hch⟩
    · simp only
      push_cast
      linarith
    · simp only
      push_cast
      have hpos : (0 : ℚ) ≤ s.nb := by exact_mod_cast Nat.zero_le _
      nlinarith
  · simp only [hd, if_false]
    refine ⟨Nat.le_refl 1, H.x (critical_idx (i + 1)), by simp, by simp, ?_⟩
    simp only
    split
    · exact bumps_loss_chain_close s.B s.inBump L _ _ hch ha1 haX
    · split
      · rename_i _ hc
        exact bumps_loss_chain_open s.B s.inBump L _ _ hch ha1 haX hc.2
      · exact bumps_loss_chain_mono s.B s.inBump L _ hLX hch

/-- The loss invariant holds when the `while` loop of `bumps_set` is left. -/
theorem bumps_loop_loss_inv (H : hermiteSpl)
    (hx : ∀ i, i + 1 < H.npts → H.x i < H.x (i + 1)) :
    bumps_loss_inv (fun t => H.x ((critical_scan H).1 t)) ((critical_scan H).2 - 1)
      (bumps_loop H) := by
  obtain ⟨_, hc2, hc3⟩ := critical_scan_inv H
  have hm := strictMono_of_adjacent H.x H.npts hx
  unfold bumps_loop
  apply foldl_range_invariant _ (bumps_loss_inv (fun t => H.x ((critical_scan H).1 t)))
  · refine ⟨Nat.le_refl 1, H.x ((critical_scan H).1 0), by simp [bumps_init],
      by simp [bumps_init], ?_⟩
    refine ⟨by simp [bumps_init], ?_, ?_, by simp [bumps_init], ?_, ?_, by simp [bumps_init]⟩
    · intro k k1 k2
      have : k ≤ 0 := k2
      omega
    · intro e
      exact absurd e (by simp [bumps_init])
    · intro k k1 k2
      have : k < 0 := k2
      omega
    · intro e
      exact absurd e (by simp [bumps_init])
  · intro i s hi hP
    apply bumps_body_loss_inv H _ i s _ hP
    exact hm _ _ (hc3 i (by omega)) (hc2 (i + 1) (by omega))

/-- After lines 112-134 every loss scale is positive, except possibly the one of a last,
open-ended bump. -/
theorem bumps_last_loss (X : Nat → ℚ) (i : Nat) (s : bumps_state)
    (hP : bumps_loss_inv X i s) (hn : 0 < s.B.n) : bumps_loss_last (bumps_last s) := by
  obtain ⟨hnb, L, hL1, hL2, hch⟩ := hP
  obtain ⟨ha1, _⟩ := avg_bounds L _ s.sum_b s.nb hnb hL1 hL2
  unfold bumps_last
  cases hib : s.inBump with
  | true =>
    simp only [if_true]
    have hpos := bloss_cur_close_pos s.B s.inBump L _ 2 (by norm_num) hch ha1 hn
    obtain ⟨h1, _, _, h4, h5, _, _⟩ := hch
    unfold bumps_loss_last
    rw [bloss_cur_n, bloss_cur_bmax]
    refine ⟨hn, ?_, ?_, Or.inl ⟨by simp only [Function.update_same]; rfl, hpos⟩⟩
    · rw [bloss_cur_close_other s.B _ 2 h1 0 (Or.inl (by omega))]
      exact h4
    · intro k k1 k2
      have k3 : k < s.B.n := k2
      rw [bloss_cur_close_other s.B _ 2 h1 k (Or.inl (by omega))]
      exact h5 k k1 k3
  | false =>
    simp only [Bool.false_eq_true, if_false]
    rw [hib] at hch
    obtain ⟨_, _, h3, h4, h5, h6, _⟩ := hch
    obtain ⟨u, hu, huL⟩ := h3 rfl
    have hne : s.B.n ≠ s.B.n + 1 := by omega
    have hnew := bloss_prev_bloss_pos
      { n := s.B.n + 1
        bleft := Function.update s.B.bleft (s.B.n + 1) (Dbl.fin (s.sum_b / s.nb))
        bmax := Function.update s.B.bmax (s.B.n + 1) Dbl.pinf
        bloss := s.B.bloss }
      (by simpa using h6 rfl hn)
      (by
        intro u1 v1 hu1 hv1
        have e1 : s.B.n + 1 - 1 = s.B.n := by omega
        change Function.update s.B.bmax (s.B.n + 1) Dbl.pinf (s.B.n + 1 - 1) = Dbl.fin u1 at hu1
        rw [e1, Function.update_noteq hne] at hu1
        simp only [Function.update_same, Dbl.fin.injEq] at hv1
        rw [hu] at hu1
        have e : u = u1 := by simpa using hu1
        rw [← e, ← hv1]
        linarith)
    simp only [Nat.add_sub_cancel] at hnew
    unfold bumps_loss_last
    rw [bloss_prev_n, bloss_prev_bmax]
    refine ⟨by simp only; omega, ?_, ?_, Or.inr ⟨by simp only; omega, ?_⟩⟩
    · rw [bloss_prev_bloss_other _ 0 (by simp only [Nat.add_sub_cancel]; omega)]
      exact h4
    · intro k k1 k2
      have k3 : k < s.B.n + 1 := k2
      by_cases e : k = s.B.n
      · subst e
        exact hnew
      · rw [bloss_prev_bloss_other _ k (by simp only [Nat.add_sub_cancel]; exact e)]
        exact h5 k k1 (by omega)
    · simp only [Function.update_same]
      rfl
theorem ite_bloss_update (c : Prop) [Decidable c] (B : phi_bumps) (j : Nat) (v : Dbl)
    (k : Nat) :
    (if c then { B with bloss := Function.update B.bloss j v } else B).bloss k
      = if c ∧ k = j then v else B.bloss k := by
  by_cases hc : c
  · by_cases hk : k = j
    · subst hk
      simp only [hc, if_true, and_self, Function.update_same]
    · simp only [hc, hk, if_true, and_false, if_false, Function.update_noteq hk]
  · simp only [hc, false_and, if_false]

/-- After lines 137-138 every loss scale of the bumps `0 .. B.n` is positive. -/
theorem bumps_extrapol_loss (B : phi_bumps) (h : bumps_loss_last B) :
    ∀ k, k ≤ B.n → Dbl.fin 0 < (bumps_extrapol B).bloss k := by
  obtain ⟨hn, q1, q2, q3⟩ := h
  have hone : Dbl.fin 0 < B.bloss 1 := by
    by_cases e : 2 ≤ B.n
    · exact q2 1 (Nat.le_refl 1) (by omega)
    · have e1 : B.n = 1 := by omega
      rcases q3 with ⟨_, q⟩ | ⟨q, _⟩
      · rw [e1] at q
        exact q
      · omega
  obtain ⟨B1, hB1⟩ : ∃ B1 : phi_bumps, B1 =
      (if (B.bmax 0).isFinite = false then
        { B with bloss := Function.update B.bloss 0 (B.bloss 1) }
      else B) := ⟨_, rfl⟩
  have f1 : B1.n = B.n := by
    rw [hB1]
    exact (ite_bloss_fields _ B _).1
  have f2 : B1.bmax = B.bmax := by
    rw [hB1]
    exact (ite_bloss_fields _ B _).2.2
  have f3 : ∀ k, B1.bloss k
      = if (B.bmax 0).isFinite = false ∧ k = 0 then B.bloss 1 else B.bloss k := by
    intro k
    rw [hB1]
    exact ite_bloss_update _ B 0 _ k
  have p1 : ∀ k, k ≤ B.n → (k ≠ B.n ∨ (B.bmax B.n).isFinite = true) →
      Dbl.fin 0 < B1.bloss k := by
    intro k hk hc
    rw [f3 k]
    split_ifs with hi
    · exact hone
    · by_cases e0 : k = 0
      · rw [e0]
        exact q1
      · by_cases e : k = B.n
        · rw [e]
          rcases q3 with ⟨_, q⟩ | ⟨_, q⟩
          · exact q
          · rcases hc with hc | hc
            · exact absurd e hc
            · rw [q] at hc
              exact absurd hc (by decide)
        · exact q2 k (by omega) (by omega)
  have e0 : bumps_extrapol B
      = (if (B1.bmax B1.n).isFinite = false then
          { B1 with bloss := Function.update B1.bloss B1.n (B1.bloss (B1.n - 1)) }
        else B1) := by
    rw [hB1]
    rfl
  intro k hk
  rw [e0, ite_bloss_update _ B1 _ _ k, f1, f2]
  split_ifs with hi
  · rcases q3 with ⟨q, _⟩ | ⟨q, _⟩
    · rw [hi.1] at q
      exact absurd q (by decide)
    · exact p1 (B.n - 1) (by omega) (Or.inl (by omega))
  · apply p1 k hk
    by_cases e : k = B.n
    · right
      cases hfin : (B.bmax B.n).isFinite with
      | true => rfl
      | false => exact absurd ⟨hfin, e⟩ hi
    · exact Or.inl e

/-- C17. Loss scales are non-negative: for every spline with strictly increasing `x` (in
particular every one with `n >= 2` points) and every fallback loss scale
`loss_args[2] >= 0`, every `bloss[k]` with `k < B.n` of the table returned by `bumps_set`
is `>= 0` (`+infinity` included), and it is strictly positive for every bump `k >= 1`. -/
theorem bumps_set_loss_nonneg (H : hermiteSpl) (loss_args : Nat → Dbl)
    (hx : ∀ i, i + 1 < H.npts → H.x i < H.x (i + 1)) (hf : Dbl.fin 0 ≤ loss_args 2) :
    (∀ k, k < (bumps_set H loss_args).n → Dbl.fin 0 ≤ (bumps_set H loss_args).bloss k) ∧
    (∀ k, 1 ≤ k → k < (bumps_set H loss_args).n →
      Dbl.fin 0 < (bumps_set H loss_args).bloss k) := by
  have hinv := bumps_loop_loss_inv H hx
  have key : ∀ k, k ≤ (bumps_close loss_args (bumps_loop H)).n →
      Dbl.fin 0 ≤ (bumps_close loss_args (bumps_loop H)).bloss k ∧
      (1 ≤ k → Dbl.fin 0 < (bumps_close loss_args (bumps_loop H)).bloss k) := by
    unfold bumps_close
    by_cases hn : (bumps_loop H).B.n > 0
    · simp only [hn, if_true]
      intro k hk
      rw [bumps_extrapol_n] at hk
      have hpos := bumps_extrapol_loss _ (bumps_last_loss _ _ _ hinv hn) k hk
      exact ⟨Dbl.le_of_lt_dbl hpos, fun _ => hpos⟩
    · simp only [hn, if_false]
      intro k hk
      have hk0 : k = 0 := by
        have : k ≤ (bumps_loop H).B.n := hk
        omega
      subst hk0
      simp only [Function.update_same]
      exact ⟨hf, fun e => absurd e (by decide)⟩
  unfold bumps_set
  simp only
  refine ⟨?_, ?_⟩
  · intro k hk
    have hne : k ≠ (bumps_close loss_args (bumps_loop H)).n + 1 := by omega
    rw [Function.update_noteq hne]
    exact (key k (by omega)).1
  · intro k k1 hk
    have hne : k ≠ (bumps_close loss_args (bumps_loop H)).n + 1 := by omega
    rw [Function.update_noteq hne]
    exact (key k (by omega)).2 k1

/-- A witness of C17: the table of `peakSpline` with the fallback loss scale `1`; the
loss scale of its interior bump is positive. -/
theorem bumps_set_loss_nonneg_witness :
    Dbl.fin 0 ≤ peakBumps.bloss 0 ∧ Dbl.fin 0 < peakBumps.bloss 1 :=
  ⟨(bumps_set_loss_nonneg peakSpline (fun _ => Dbl.fin 1) peakSpline_increasing
      (by decide!)).1 0 (by decide!),
   (bumps_set_loss_nonneg peakSpline (fun _ => Dbl.fin 1) peakSpline_increasing
      (by decide!)).2 1 (by decide) (by decide!)⟩

/-! ## How far the sentinel can go -/

theorem bumps_last_n (s : bumps_state) :
    (bumps_last s).n = s.B.n + (if s.inBump = true then 0 else 1) := by
  unfold bumps_last
  cases hib : s.inBump with
  | true =>
    simp only [if_true]
    rw [bloss_cur_n]
    rfl
  | false =>
    simp only [Bool.false_eq_true, if_false]
    rw [bloss_prev_n]

/-- The body of the `while` loop opens or closes at most one run per pair. -/
theorem bumps_body_count (H : hermiteSpl) (critical_idx : Nat → Nat) (i : Nat)
    (s : bumps_state) (h : s.B.n + (if s.inBump = true then 0 else 1) ≤ i) :
    (bumps_body H critical_idx s i).B.n
      + (if (bumps_body H critical_idx s i).inBump = true then 0 else 1) ≤ i + 1 := by
  have hn : s.B.n ≤ i := by omega
  unfold bumps_body
  by_cases hd : H.a (critical_idx (i + 1)) - H.a (critical_idx i) = 0
  · simp only [hd, if_true]
    omega
  · simp only [hd, if_false]
    split
    · simp only [bloss_cur_n, Bool.false_eq_true, if_false]
      omega
    · split
      · simp only [bloss_prev_n, if_true]
        omega
      · omega

/-- The terminal sentinel is written at most one cell past the end of the arrays: the
final value of `B->n` never exceeds `H->npts`. -/
theorem bumps_sentinel_index_le (H : hermiteSpl) (loss_args : Nat → Dbl) (hn : 1 ≤ H.npts) :
    bumps_sentinel_index H loss_args ≤ bumps_alloc H := by
  obtain ⟨hj, _, _⟩ := critical_scan_inv H
  have hloop : (bumps_loop H).B.n + (if (bumps_loop H).inBump = true then 0 else 1)
      ≤ (critical_scan H).2 - 1 := by
    unfold bumps_loop
    apply foldl_range_invariant _
      (fun i (s : bumps_state) => s.B.n + (if s.inBump = true then 0 else 1) ≤ i)
    · simp [bumps_init]
    · intro i s _ hP
      exact bumps_body_count H _ i s hP
  unfold bumps_sentinel_index bumps_alloc bumps_close
  by_cases h0 : (bumps_loop H).B.n > 0
  · simp only [h0, if_true]
    rw [bumps_extrapol_n, bumps_last_n]
    omega
  · simp only [h0, if_false]
    omega

/-! ## Smoothness at the nodes -/

/-- C21. The built piecewise cubic is continuously differentiable at the nodes: for every
input with `n >= 2`, strictly increasing `x`, any `y`, any initial slopes and any `sqrt`,
and every segment `k <= n-2`, with `h = x[k+1]-x[k]`, the cubic of segment `k` satisfies
`a[k] + h*(b[k] + h*(c[k] + h*d[k])) = a[k+1]` and
`b[k] + 2*c[k]*h + 3*d[k]*h^2 = b[k+1]`. -/
theorem pchip_set_node_smooth (sqrt : ℚ → ℚ) (n : Nat) (x y m : Nat → ℚ) (hn : 2 ≤ n)
    (hx : ∀ i, i + 1 < n → x i < x (i + 1)) (k : Nat) (hk : k + 1 < n) :
    (pchip_set sqrt n x y m).a k
        + (x (k + 1) - x k) * ((pchip_set sqrt n x y m).b k
          + (x (k + 1) - x k) * ((pchip_set sqrt n x y m).c k
            + (x (k + 1) - x k) * (pchip_set sqrt n x y m).d k))
      = (pchip_set sqrt n x y m).a (k + 1) ∧
    (pchip_set sqrt n x y m).b k + 2 * (pchip_set sqrt n x y m).c k * (x (k + 1) - x k)
        + 3 * (pchip_set sqrt n x y m).d k * (x (k + 1) - x k) ^ 2
      = (pchip_set sqrt n x y m).b (k + 1) := by
  have hk1 : k < n - 1 := by omega
  have hh : x (k + 1) - x k ≠ 0 := ne_of_gt (by linarith [hx k hk])
  have ea : (pchip_set sqrt n x y m).a k = y k := memcpy_of_lt y n k (by omega)
  have ea1 : (pchip_set sqrt n x y m).a (k + 1) = y (k + 1) := memcpy_of_lt y n (k + 1) hk
  have eb : (pchip_set sqrt n x y m).b k
      = pchip_slope_monoFC sqrt n m (pchip_delta n x y) k := memcpy_of_lt _ n k (by omega)
  have eb1 : (pchip_set sqrt n x y m).b (k + 1)
      = pchip_slope_monoFC sqrt n m (pchip_delta n x y) (k + 1) := memcpy_of_lt _ n (k + 1) hk
  have ec : (pchip_set sqrt n x y m).c k
      = (3 * ((y (k + 1) - y k) / (x (k + 1) - x k))
          - 2 * pchip_slope_monoFC sqrt n m (pchip_delta n x y) k
          - pchip_slope_monoFC sqrt n m (pchip_delta n x y) (k + 1)) / (x (k + 1) - x k) := by
    show (if k < n - 1 then _ else _) = _
    rw [if_pos hk1]
    simp only [pchip_delta, pchip_h, if_pos hk1]
  have ed : (pchip_set sqrt n x y m).d k
      = (pchip_slope_monoFC sqrt n m (pchip_delta n x y) k
          - 2 * ((y (k + 1) - y k) / (x (k + 1) - x k))
          + pchip_slope_monoFC sqrt n m (pchip_delta n x y) (k + 1))
        / ((x (k + 1) - x k) * (x (k + 1) - x k)) := by
    show (if k < n - 1 then _ else _) = _
    rw [if_pos hk1]
    simp only [pchip_delta, pchip_h, if_pos hk1]
  rw [ea, ea1, eb, eb1, ec, ed]
  constructor
  · field_simp
    ring
  · field_simp
    ring

/-- A witness of C21: segment `0` of `risingSpline`, whose slopes were rescaled. -/
theorem pchip_set_node_smooth_witness :
    risingSpline.a 0 + (ofList [0, 1, 2] 1 - ofList [0, 1, 2] 0) * (risingSpline.b 0
        + (ofList [0, 1, 2] 1 - ofList [0, 1, 2] 0) * (risingSpline.c 0
          + (ofList [0, 1, 2] 1 - ofList [0, 1, 2] 0) * risingSpline.d 0))
      = risingSpline.a 1 :=
  (pchip_set_node_smooth Rat.sqrt 3 (ofList [0, 1, 2]) (ofList [0, 1, 5 / 4]) (ofList [4, 1, 0])
    (by decide)
    (by
      intro i hi
      have h : i = 0 ∨ i = 1 := by omega
      rcases h with h | h <;> subst h <;> decide!)
    0 (by decide)).1

/-! ## The interior loss scales -/

theorem bumps_form_of_eq (B B1 : phi_bumps) (k : Nat) (h1 : B1.bmax k = B.bmax k)
    (h2 : B1.bleft k = B.bleft k) (h3 : B1.bleft (k + 1) = B.bleft (k + 1))
    (h4 : B1.bloss k = B.bloss k) (h : bumps_form B k) : bumps_form B1 k := by
  obtain ⟨u, v, w, hu, hv, hw, hl⟩ := h
  exact ⟨u, v, w, by rw [h1, hu], by rw [h2, hv], by rw [h3, hw], by rw [h4, hl]⟩

/-- The value that lines 90-96 (and 127-133) leave in `bloss[B->n-1]`. -/
theorem bloss_prev_bloss_val (B : phi_bumps) (u w D : ℚ) (hu : B.bmax (B.n - 1) = Dbl.fin u)
    (hw : B.bleft B.n = Dbl.fin w) (hD : B.bloss (B.n - 1) = Dbl.fin D) (huw : u < w) :
    (bloss_prev B).bloss (B.n - 1) = Dbl.fin (2 * min D (w - u)) := by
  have hab : |u - w| = w - u := by
    rw [abs_sub_comm]
    exact abs_of_pos (by linarith)
  unfold bloss_prev
  rw [hu, hw]
  simp only [hab, hD, Dbl.fin_lt_fin]
  split_ifs with hlt
  · simp only [Function.update_same]
    rw [min_eq_right (le_of_lt hlt)]
  · simp only [Function.update_same]
    rw [min_eq_left (not_lt.mp hlt)]
    rfl

theorem bumps_form_chain_mono (B : phi_bumps) (inBump : Bool) (L L1 : ℚ) (hL : L ≤ L1)
    (h : bumps_form_chain B inBump L) : bumps_form_chain B inBump L1 :=
  ⟨bumps_loss_chain_mono B inBump L L1 hL h.1, h.2.1, h.2.2⟩
/-- Closing the rising run keeps the invariant on the values of the loss scales. -/
theorem bumps_form_chain_close (B : phi_bumps) (inBump : Bool) (L avg L1 : ℚ)
    (h : bumps_form_chain B inBump L) (ha : L ≤ avg) (hb : avg < L1) :
    bumps_form_chain (bloss_cur 1 { B with bmax := Function.update B.bmax B.n (Dbl.fin avg) })
      false L1 := by
  obtain ⟨hl, j3, _⟩ := h
  have h1 : B.bleft 0 = Dbl.ninf := hl.1
  have h2 := hl.2.1
  refine ⟨bumps_loss_chain_close B inBump L avg L1 hl ha hb, ?_, ?_⟩
  · intro k k1 k2
    rw [bloss_cur_n] at k2
    have k3 : k < B.n := k2
    have hne : k ≠ B.n := by omega
    apply bumps_form_of_eq B _ k ?_ ?_ ?_ ?_ (j3 k k1 k3)
    · rw [bloss_cur_bmax]
      exact Function.update_noteq hne _ _
    · rw [bloss_cur_bleft]
    · rw [bloss_cur_bleft]
    · exact bloss_cur_close_other B avg 1 h1 k (Or.inl hne)
  · intro _ hn
    rw [bloss_cur_n] at hn
    have hn1 : 1 ≤ B.n := hn
    obtain ⟨v, hv, hvL⟩ := h2 B.n hn1 (Nat.le_refl _)
    have hva : v < avg := by linarith
    have e := bloss_cur_bloss_fin 1 { B with bmax := Function.update B.bmax B.n (Dbl.fin avg) }
      avg v (by simp only [Function.update_same]) hv
    refine ⟨avg, v, ?_, ?_, hva, ?_⟩
    · rw [bloss_cur_n, bloss_cur_bmax]
      exact Function.update_same _ _ _
    · rw [bloss_cur_n, bloss_cur_bleft]
      exact hv
    · rw [bloss_cur_n]
      rw [e, one_mul, abs_of_pos (by linarith)]

/-- The closed form appears when the bump after `B.n` is opened. -/
theorem bumps_form_new (B B2 : phi_bumps) (L avg : ℚ) (hl : bumps_loss_chain B false L)
    (j4 : ∃ u v : ℚ, B.bmax B.n = Dbl.fin u ∧ B.bleft B.n = Dbl.fin v ∧ v < u ∧
      B.bloss B.n = Dbl.fin (u - v))
    (ha : L ≤ avg) (hn : B2.n = B.n + 1) (hm : B2.bmax B.n = B.bmax B.n)
    (hl0 : B2.bleft B.n = B.bleft B.n) (hl1 : B2.bleft (B.n + 1) = Dbl.fin avg)
    (hs : B2.bloss = B.bloss) : bumps_form (bloss_prev B2) B.n := by
  obtain ⟨u, v, hu, hv, _, hD⟩ := j4
  obtain ⟨u1, hu1, hu1L⟩ := hl.2.2.1 rfl
  have e : u = u1 := by
    rw [hu] at hu1
    simpa using hu1
  have huw : u < avg := by
    rw [e]
    linarith
  have e1 : B2.n - 1 = B.n := by omega
  have hval := bloss_prev_bloss_val B2 u avg (u - v) (by rw [e1, hm, hu]) (by rw [hn, hl1])
    (by rw [e1, hs, hD]) huw
  rw [e1] at hval
  refine ⟨u, v, avg, ?_, ?_, ?_, hval⟩
  · rw [bloss_prev_bmax, hm, hu]
  · rw [bloss_prev_bleft, hl0, hv]
  · rw [bloss_prev_bleft, hl1]

/-- Opening a bump keeps the invariant on the values of the loss scales. -/
theorem bumps_form_chain_open (B : phi_bumps) (inBump : Bool) (L avg L1 : ℚ)
    (h : bumps_form_chain B inBump L) (ha : L ≤ avg) (hb : avg < L1)
    (hc : inBump = false ∨ B.n = 0) :
    bumps_form_chain
      (bloss_prev { B with n := B.n + 1,
                           bleft := Function.update B.bleft (B.n + 1) (Dbl.fin avg) })
      true L1 := by
  obtain ⟨hl, j3, j4⟩ := h
  have hne : B.n ≠ B.n + 1 := by omega
  refine ⟨bumps_loss_chain_open B inBump L avg L1 hl ha hb hc, ?_, ?_⟩
  · intro k k1 k2
    rw [bloss_prev_n] at k2
    have k3 : k < B.n + 1 := k2
    by_cases e : k = B.n
    · rw [e]
      have hib : inBump = false := by
        rcases hc with hc | hc
        · exact hc
        · omega
      rw [hib] at hl
      exact bumps_form_new B _ L avg hl (j4 hib (by omega)) ha rfl rfl
        (Function.update_noteq hne _ _) (Function.update_same _ _ _) rfl
    · have k4 : k < B.n := by omega
      apply bumps_form_of_eq B _ k ?_ ?_ ?_ ?_ (j3 k k1 k4)
      · rw [bloss_prev_bmax]
      · rw [bloss_prev_bleft]
        exact Function.update_noteq (by omega) _ _
      · rw [bloss_prev_bleft]
        exact Function.update_noteq (by omega) _ _
      · exact bloss_prev_bloss_other _ k (by simp only [Nat.add_sub_cancel]; exact e)
  · intro e
    exact absurd e (by decide)
/-- The body of the `while` loop keeps the invariant on the values of the loss scales. -/
theorem bumps_body_form_inv (H : hermiteSpl) (critical_idx : Nat → Nat) (i : Nat)
    (s : bumps_state)
    (hX : H.x (critical_idx i) < H.x (critical_idx (i + 1)))
    (hP : bumps_form_inv (fun t => H.x (critical_idx t)) i s) :
    bumps_form_inv (fun t => H.x (critical_idx t)) (i + 1) (bumps_body H critical_idx s i) := by
  obtain ⟨hnb, L, hL1, hL2, hch⟩ := hP
  simp only at hL2
  obtain ⟨ha1, ha2⟩ := avg_bounds L _ s.sum_b s.nb hnb hL1 hL2
  have hLX : L ≤ H.x (critical_idx (i + 1)) := le_trans (le_trans ha1 ha2) (le_of_lt hX)
  have haX : s.sum_b / s.nb < H.x (critical_idx (i + 1)) := lt_of_le_of_lt ha2 hX
  unfold bumps_body
  by_cases hd : H.a (critical_idx (i + 1)) - H.a (critical_idx i) = 0
  · simp only [hd, if_true]
    refine ⟨by simp only; omega, L, ?_, ?_, hch⟩
    · simp only
      push_cast
      linarith
    · simp only
      push_cast
      have hpos : (0 : ℚ) ≤ s.nb := by exact_mod_cast Nat.zero_le _
      nlinarith
  · simp only [hd, if_false]
    refine ⟨Nat.le_refl 1, H.x (critical_idx (i + 1)), by simp, by simp, ?_⟩
    simp only
    split
    · exact bumps_form_chain_close s.B s.inBump L _ _ hch ha1 haX
    · split
      · rename_i _ hc
        exact bumps_form_chain_open s.B s.inBump L _ _ hch ha1 haX hc.2
      · exact bumps_form_chain_mono s.B s.inBump L _ hLX hch

/-- The state in which the loop is entered satisfies the loss invariant. -/
theorem bumps_init_loss_chain (H : hermiteSpl) (critical_idx : Nat → Nat) (L : ℚ) :
    bumps_loss_chain (bumps_init H critical_idx).B (bumps_init H critical_idx).inBump L := by
  refine ⟨by simp [bumps_init], ?_, ?_, by simp [bumps_init], ?_, ?_, by simp [bumps_init]⟩
  · intro k k1 k2
    have : k ≤ 0 := k2
    omega
  · intro e
    exact absurd e (by simp [bumps_init])
  · intro k k1 k2
    have : k < 0 := k2
    omega
  · intro e
    exact absurd e (by simp [bumps_init])

/-- The invariant on the values of the loss scales holds when the loop is left. -/
theorem bumps_loop_form_inv (H : hermiteSpl)
    (hx : ∀ i, i + 1 < H.npts → H.x i < H.x (i + 1)) :
    bumps_form_inv (fun t => H.x ((critical_scan H).1 t)) ((critical_scan H).2 - 1)
      (bumps_loop H) := by
  obtain ⟨_, hc2, hc3⟩ := critical_scan_inv H
  have hm := strictMono_of_adjacent H.x H.npts hx
  unfold bumps_loop
  apply foldl_range_invariant _ (bumps_form_inv (fun t => H.x ((critical_scan H).1 t)))
  · refine ⟨Nat.le_refl 1, H.x ((critical_scan H).1 0), by simp [bumps_init],
      by simp [bumps_init], bumps_init_loss_chain H _ _, ?_, ?_⟩
    · intro k k1 k2
      have : k < 0 := k2
      omega
    · intro e
      exact absurd e (by simp [bumps_init])
  · intro i s hi hP
    apply bumps_body_form_inv H _ i s _ hP
    exact hm _ _ (hc3 i (by omega)) (hc2 (i + 1) (by omega))

/-- After lines 112-134 every interior bump has the closed form. -/
theorem bumps_last_form (X : Nat → ℚ) (i : Nat) (s : bumps_state)
    (hP : bumps_form_inv X i s) (hn : 0 < s.B.n) :
    ∀ k, 1 ≤ k → k < (bumps_last s).n → bumps_form (bumps_last s) k := by
  obtain ⟨hnb, L, hL1, hL2, hl, j3, j4⟩ := hP
  obtain ⟨ha1, _⟩ := avg_bounds L _ s.sum_b s.nb hnb hL1 hL2
  have h1 : s.B.bleft 0 = Dbl.ninf := hl.1
  intro k k1 k2
  rw [bumps_last_n] at k2
  unfold bumps_last
  cases hib : s.inBump with
  | true =>
    simp only [hib, if_true, Nat.add_zero] at k2
    simp only [if_true]
    have hne : k ≠ s.B.n := by omega
    apply bumps_form_of_eq s.B _ k ?_ ?_ ?_ ?_ (j3 k k1 k2)
    · rw [bloss_cur_bmax]
      exact Function.update_noteq hne _ _
    · rw [bloss_cur_bleft]
    · rw [bloss_cur_bleft]
    · exact bloss_cur_close_other s.B _ 2 h1 k (Or.inl hne)
  | false =>
    simp only [hib, Bool.false_eq_true, if_false] at k2
    simp only [Bool.false_eq_true, if_false]
    have hne : s.B.n ≠ s.B.n + 1 := by omega
    by_cases e : k = s.B.n
    · rw [e]
      rw [hib] at hl
      exact bumps_form_new s.B _ L _ hl (j4 hib hn) ha1 rfl
        (Function.update_noteq hne _ _) (Function.update_noteq hne _ _)
        (Function.update_same _ _ _) rfl
    · have k4 : k < s.B.n := by omega
      apply bumps_form_of_eq s.B _ k ?_ ?_ ?_ ?_ (j3 k k1 k4)
      · rw [bloss_prev_bmax]
        exact Function.update_noteq (by omega) _ _
      · rw [bloss_prev_bleft]
        exact Function.update_noteq (by omega) _ _
      · rw [bloss_prev_bleft]
        exact Function.update_noteq (by omega) _ _
      · exact bloss_prev_bloss_other _ k (by simp only [Nat.add_sub_cancel]; exact e)

/-- Lines 137-138 write only `bloss[0]` and `bloss[B->n]`. -/
theorem bumps_extrapol_bloss_other (B : phi_bumps) (k : Nat) (h0 : k ≠ 0) (hn : k ≠ B.n) :
    (bumps_extrapol B).bloss k = B.bloss k := by
  obtain ⟨B1, hB1⟩ : ∃ B1 : phi_bumps, B1 =
      (if (B.bmax 0).isFinite = false then
        { B with bloss := Function.update B.bloss 0 (B.bloss 1) }
      else B) := ⟨_, rfl⟩
  have f1 : B1.n = B.n := by
    rw [hB1]
    exact (ite_bloss_fields _ B _).1
  have f3 : B1.bloss k = B.bloss k := by
    rw [hB1, ite_bloss_update _ B 0 _ k]
    simp only [h0, and_false, if_false]
  have e0 : bumps_extrapol B
      = (if (B1.bmax B1.n).isFinite = false then
          { B1 with bloss := Function.update B1.bloss B1.n (B1.bloss (B1.n - 1)) }
        else B1) := by
    rw [hB1]
    rfl
  have hn1 : k ≠ B1.n := by
    rw [f1]
    exact hn
  rw [e0, ite_bloss_update _ B1 _ _ k]
  simp only [hn1, and_false, if_false]
  exact f3

/-- C22. Closed form of the interior loss scale: for the table `B` that `bumps_set` returns
from a spline with strictly increasing `x`, and every bump `k >= 1` that has a successor
bump (`k+1 < B.n`), the boundaries `bmax[k]`, `bleft[k]`, `bleft[k+1]` are finite and
`bloss[k] = 2 * min(bmax[k] - bleft[k], bleft[k+1] - bmax[k])`. -/
theorem bumps_set_interior_loss (H : hermiteSpl) (loss_args : Nat → Dbl)
    (hx : ∀ i, i + 1 < H.npts → H.x i < H.x (i + 1)) (k : Nat) (hk1 : 1 ≤ k)
    (hk2 : k + 1 < (bumps_set H loss_args).n) :
    ∃ u v w : ℚ,
      (bumps_set H loss_args).bmax k = Dbl.fin u ∧
      (bumps_set H loss_args).bleft k = Dbl.fin v ∧
      (bumps_set H loss_args).bleft (k + 1) = Dbl.fin w ∧
      (bumps_set H loss_args).bloss k = Dbl.fin (2 * min (u - v) (w - u)) := by
  have hinv := bumps_loop_form_inv H hx
  have hk3 : k < (bumps_close loss_args (bumps_loop H)).n := by
    have : k + 1 < (bumps_close loss_args (bumps_loop H)).n + 1 := hk2
    omega
  have key : bumps_form (bumps_close loss_args (bumps_loop H)) k := by
    revert hk3
    unfold bumps_close
    by_cases hn : (bumps_loop H).B.n > 0
    · simp only [hn, if_true]
      intro hk3
      rw [bumps_extrapol_n] at hk3
      apply bumps_form_of_eq (bumps_last (bumps_loop H)) _ k ?_ ?_ ?_ ?_
        (bumps_last_form _ _ _ hinv hn k hk1 hk3)
      · rw [bumps_extrapol_bmax]
      · rw [bumps_extrapol_bleft]
      · rw [bumps_extrapol_bleft]
      · exact bumps_extrapol_bloss_other _ k (by omega) (by omega)
    · simp only [hn, if_false]
      intro hk3
      have : k < (bumps_loop H).B.n := hk3
      omega
  obtain ⟨u, v, w, hu, hv, hw, hl⟩ := key
  have hne : k ≠ (bumps_close loss_args (bumps_loop H)).n + 1 := by omega
  have hne1 : k + 1 ≠ (bumps_close loss_args (bumps_loop H)).n + 1 := by omega
  refine ⟨u, v, w, ?_, ?_, ?_, ?_⟩
  · show Function.update _ _ _ k = _
    rw [Function.update_noteq hne]
    exact hu
  · show Function.update _ _ _ k = _
    rw [Function.update_noteq hne]
    exact hv
  · show Function.update _ _ _ (k + 1) = _
    rw [Function.update_noteq hne1]
    exact hw
  · show Function.update _ _ _ k = _
    rw [Function.update_noteq hne]
    exact hl

/-- A witness of C22: the interior bump `1` of the table of `peakSpline`, with
`bmax = 5`, `bleft = 0`, next `bleft = 10` and `bloss = 10`. -/
theorem bumps_set_interior_loss_witness :
    ∃ u v w : ℚ,
      peakBumps.bmax 1 = Dbl.fin u ∧ peakBumps.bleft 1 = Dbl.fin v ∧
      peakBumps.bleft 2 = Dbl.fin w ∧ peakBumps.bloss 1 = Dbl.fin (2 * min (u - v) (w - u)) :=
  bumps_set_interior_loss peakSpline (fun _ => Dbl.fin 1) peakSpline_increasing 1 (by decide)
    (by decide!)

end IRon
